import Mathlib

/-!
Verification of the nano-vllm request scheduler and paged KV-cache block
manager (`nanovllm/engine/block_manager.py`, `nanovllm/engine/scheduler.py`,
`nanovllm/engine/sequence.py`).

The Python code is embedded shallowly: every class becomes a structure, every
method a function on that structure; mutation becomes explicit state passing.
Code that can raise (a failing `assert`, indexing an empty deque) returns
`Option`, with `none` for the aborted run.

Two modelling notes:
* `BlockManager.compute_hash` calls xxhash64 on the byte serialisation of the
  prefix hash and the token list.  The code only ever compares hashes for
  equality, and the spec treats the hash as collision-free (collisions are
  declared resolved by the content check).  The model therefore replaces
  xxhash64 by an injective pairing on (prefix, token list); hash values are
  the nonnegative integers, `-1` is the "unset" sentinel exactly as in the
  source.
* `Sequence.block_size` is a class attribute (256) and the `BlockManager`
  receives `config.kvcache_block_size` (default 256).  The embedding uses the
  single shared `block_size` carried by the `BlockManager`, which coincides
  with the source whenever the two values agree (they do in the default
  configuration, and the spec's data model has a single `block_size`).
-/

namespace NanoVllm

/-- Status of a request, `sequence.py` `SequenceStatus`. -/
inductive SequenceStatus where
  | waiting
  | running
  | finished
deriving DecidableEq, Repr

/-- Per-request state, `sequence.py` `Sequence.__init__`.  `temperature` is
omitted: it is never read by the scheduler or the block manager. -/
structure Sequence where
  seq_id : Nat
  status : SequenceStatus
  token_ids : List Nat
  last_token : Nat
  num_tokens : Nat
  num_prompt_tokens : Nat
  num_cached_tokens : Nat
  block_table : List Nat
  max_tokens : Int
  ignore_eos : Bool
deriving DecidableEq, Repr

/-- `Sequence.__init__` for a fresh request (status Waiting, empty block
table); `last_token = token_ids[-1]` (the constructor is only ever called on a
nonempty prompt; `Op.newSeq` below guards that). -/
def Sequence.make (seq_id : Nat) (token_ids : List Nat) (max_tokens : Int)
    (ignore_eos : Bool) : Sequence :=
  { seq_id := seq_id
    status := .waiting
    token_ids := token_ids
    last_token := token_ids.getLastD 0
    num_tokens := token_ids.length
    num_prompt_tokens := token_ids.length
    num_cached_tokens := 0
    block_table := []
    max_tokens := max_tokens
    ignore_eos := ignore_eos }

/-- `Sequence.num_completion_tokens` (`num_tokens - num_prompt_tokens`). -/
def Sequence.num_completion_tokens (seq : Sequence) : Nat :=
  seq.num_tokens - seq.num_prompt_tokens

/-- `Sequence.num_blocks`: `(num_tokens + block_size - 1) // block_size`. -/
def Sequence.num_blocks (seq : Sequence) (block_size : Nat) : Nat :=
  (seq.num_tokens + block_size - 1) / block_size

/-- `Sequence.last_block_num_tokens`. -/
def Sequence.last_block_num_tokens (seq : Sequence) (block_size : Nat) : Nat :=
  seq.num_tokens - (seq.num_blocks block_size - 1) * block_size

/-- `Sequence.block(i)`: `token_ids[i*block_size : (i+1)*block_size]`. -/
def Sequence.block (seq : Sequence) (block_size i : Nat) : List Nat :=
  (seq.token_ids.drop (i * block_size)).take block_size

/-- `Sequence.append_token`. -/
def Sequence.append_token (seq : Sequence) (token_id : Nat) : Sequence :=
  { seq with
    token_ids := seq.token_ids ++ [token_id]
    last_token := token_id
    num_tokens := seq.num_tokens + 1 }

/-- Injective encoding of a token list into `Nat`, standing in for the byte
serialisation fed to the hasher. -/
def encodeTokens : List Nat → Nat
  | [] => 0
  | t :: ts => Nat.pair t (encodeTokens ts) + 1

/-- `BlockManager.compute_hash(token_ids, prefix)`: chained block hash.  The
source feeds the 8-byte prefix (when `prefix != -1`) and then the token bytes
to xxhash64; the model pairs the prefix with the token encoding injectively.
Results are always nonnegative, so they never collide with the `-1` sentinel
(a 64-bit xxhash digest is likewise never `-1`). -/
def compute_hash (token_ids : List Nat) (pfx : Int) : Int :=
  Int.ofNat (Nat.pair (if pfx = -1 then 0 else pfx.toNat + 1) (encodeTokens token_ids))

/-- A KV-cache block, `block_manager.py` `Block`. -/
structure Block where
  block_id : Nat
  ref_count : Int
  hash : Int
  token_ids : List Nat
deriving DecidableEq, Repr

instance : Inhabited Block := ⟨⟨0, 0, -1, []⟩⟩

/-- `Block.update(hash, token_ids)`. -/
def Block.update (b : Block) (hash : Int) (token_ids : List Nat) : Block :=
  { b with hash := hash, token_ids := token_ids }

/-- `Block.reset()`: `ref_count = 1`, clear hash and tokens. -/
def Block.reset (b : Block) : Block :=
  { b with ref_count := 1, hash := -1, token_ids := [] }

/-- The block pool, `block_manager.py` `BlockManager.__init__`.  The dedup
dict becomes an association list (`dictGet`/`dictSet` below), the free deque a
list (head = left end), the used set a `Finset`. -/
structure BlockManager where
  block_size : Nat
  blocks : List Block
  hash_to_block_id : List (Int × Nat)
  free_block_ids : List Nat
  used_block_ids : Finset Nat
deriving DecidableEq

/-- `dict.get(h, -1)` on the dedup index. -/
def dictGet (d : List (Int × Nat)) (h : Int) : Int :=
  match d.find? (fun p => p.1 == h) with
  | some p => (p.2 : Int)
  | none => -1

/-- `dict[h] = v` (overwrite) on the dedup index. -/
def dictSet (d : List (Int × Nat)) (h : Int) (v : Nat) : List (Int × Nat) :=
  (h, v) :: d.filter (fun p => p.1 != h)

/-- `self.blocks[i]` (reads are always in range in reachable states). -/
def blockAt (bm : BlockManager) (i : Nat) : Block :=
  bm.blocks.getD i default

/-- In-place mutation of `self.blocks[i]`. -/
def setBlock (bm : BlockManager) (i : Nat) (f : Block → Block) : BlockManager :=
  { bm with blocks := bm.blocks.set i (f (blockAt bm i)) }

/-- `self.blocks[i].ref_count`. -/
def refAt (bm : BlockManager) (i : Nat) : Int :=
  (blockAt bm i).ref_count

/-- `BlockManager.__init__(num_blocks, block_size)`; `assert num_blocks > 0`. -/
def BlockManager.init (num_blocks block_size : Nat) : Option BlockManager :=
  if 0 < num_blocks then
    some { block_size := block_size
           blocks := (List.range num_blocks).map fun i =>
             { block_id := i, ref_count := 0, hash := -1, token_ids := [] }
           hash_to_block_id := []
           free_block_ids := List.range num_blocks
           used_block_ids := ∅ }
  else none

/-- The state change of `BlockManager._allocate_block(block_id)`: reset the
block, move the id from free to used. -/
def claimBlock (bm : BlockManager) (block_id : Nat) : BlockManager :=
  { setBlock bm block_id Block.reset with
    free_block_ids := bm.free_block_ids.erase block_id
    used_block_ids := insert block_id bm.used_block_ids }

/-- `BlockManager._allocate_block(block_id)`: `assert ref_count == 0` (else
the run aborts), then perform `claimBlock`. -/
def _allocate_block (bm : BlockManager) (block_id : Nat) : Option BlockManager :=
  if refAt bm block_id = 0 then some (claimBlock bm block_id) else none

/-- `BlockManager._deallocate_block(block_id)`: move the id from used to the
tail of free.  Its `assert ref_count == 0` holds trivially at the only call
site (`deallocate` just tested it). -/
def _deallocate_block (bm : BlockManager) (block_id : Nat) : BlockManager :=
  { bm with
    used_block_ids := bm.used_block_ids.erase block_id
    free_block_ids := bm.free_block_ids ++ [block_id] }

/-- `BlockManager.can_allocate(seq)`. -/
def can_allocate (bm : BlockManager) (seq : Sequence) : Bool :=
  seq.num_blocks bm.block_size ≤ bm.free_block_ids.length

/-- The chained hash `h` computed at logical block `i` of the allocate loop
(line 85 of `block_manager.py`): hash the block when it is full, else the
`-1` sentinel. -/
def blockHash (bm : BlockManager) (seq : Sequence) (h : Int) (i : Nat) : Int :=
  if (seq.block bm.block_size i).length = bm.block_size then
    compute_hash (seq.block bm.block_size i) h
  else -1

/-- The dedup-index lookup `hash_to_block_id.get(h, -1)` at block `i`, as the
(nonnegative) candidate id (lines 89). -/
def hitId (bm : BlockManager) (seq : Sequence) (h : Int) (i : Nat) : Nat :=
  (dictGet bm.hash_to_block_id (blockHash bm seq h i)).toNat

/-- The sticky `cache_miss` flag after block `i` (lines 90-91): set when it
was already set, when the lookup missed, or when the candidate block's
current `token_ids` differ from the candidate slice. -/
def stepMiss (bm : BlockManager) (seq : Sequence) (h : Int) (cache_miss : Bool)
    (i : Nat) : Bool :=
  cache_miss || (dictGet bm.hash_to_block_id (blockHash bm seq h i) == -1)
    || ((blockAt bm (hitId bm seq h i)).token_ids != seq.block bm.block_size i)

/-- Tail of the allocate-loop body (lines 103-107): if the block is full
(`h ≠ -1`), store `(h, token_ids)` in it and publish
`hash_to_block_id[h] = bid`; then append `bid` to the block table. -/
def allocFinish (bm : BlockManager) (seq : Sequence) (h : Int) (cache_miss : Bool)
    (bid : Nat) (token_ids : List Nat) : BlockManager × Sequence × Int × Bool :=
  let bm' :=
    if h ≠ -1 then
      { setBlock bm bid (fun b => b.update h token_ids) with
        hash_to_block_id := dictSet bm.hash_to_block_id h bid }
    else bm
  (bm', { seq with block_table := seq.block_table ++ [bid] }, h, cache_miss)

/-- One iteration of the `for i in range(seq.num_blocks)` loop of
`BlockManager.allocate`, at logical block `i`, with loop-carried chained hash
`h` and sticky `cache_miss` flag.  Mirrors lines 80-107 of
`block_manager.py`: on a miss take the head of the free deque; on a hit add
`block_size` to `num_cached_tokens` and either bump the used block's
`ref_count` or re-claim it from the free pool. -/
def allocStep (bm : BlockManager) (seq : Sequence) (h : Int) (cache_miss : Bool)
    (i : Nat) : Option (BlockManager × Sequence × Int × Bool) :=
  if stepMiss bm seq h cache_miss i then
    match bm.free_block_ids with
    | [] => none
    | bid :: _ =>
      match _allocate_block bm bid with
      | none => none
      | some bm₁ =>
        some (allocFinish bm₁ seq (blockHash bm seq h i) (stepMiss bm seq h cache_miss i)
          bid (seq.block bm.block_size i))
  else
    if hitId bm seq h i ∈ bm.used_block_ids then
      some (allocFinish
        (setBlock bm (hitId bm seq h i) fun b => { b with ref_count := b.ref_count + 1 })
        { seq with num_cached_tokens := seq.num_cached_tokens + bm.block_size }
        (blockHash bm seq h i) (stepMiss bm seq h cache_miss i)
        (hitId bm seq h i) (seq.block bm.block_size i))
    else
      match _allocate_block bm (hitId bm seq h i) with
      | none => none
      | some bm₁ =>
        some (allocFinish bm₁
          { seq with num_cached_tokens := seq.num_cached_tokens + bm.block_size }
          (blockHash bm seq h i) (stepMiss bm seq h cache_miss i)
          (hitId bm seq h i) (seq.block bm.block_size i))

/-- The `for` loop of `BlockManager.allocate` over the logical block
indices. -/
def allocLoop : BlockManager → Sequence → Int → Bool → List Nat →
    Option (BlockManager × Sequence)
  | bm, seq, _, _, [] => some (bm, seq)
  | bm, seq, h, m, i :: rest =>
    match allocStep bm seq h m i with
    | none => none
    | some (bm', seq', h', m') => allocLoop bm' seq' h' m' rest

/-- `BlockManager.allocate(seq)`: `assert not seq.block_table`, then walk the
logical blocks with `h = -1`, `cache_miss = False`. -/
def allocate (bm : BlockManager) (seq : Sequence) : Option (BlockManager × Sequence) :=
  if seq.block_table = [] then
    allocLoop bm seq (-1) false (List.range (seq.num_blocks bm.block_size))
  else none

/-- One iteration of the `for block_id in reversed(seq.block_table)` loop of
`BlockManager.deallocate`: decrement `ref_count`, free the block when it
reaches zero. -/
def deallocStep (bm : BlockManager) (block_id : Nat) : BlockManager :=
  let bm₁ := setBlock bm block_id fun b => { b with ref_count := b.ref_count - 1 }
  if refAt bm₁ block_id = 0 then _deallocate_block bm₁ block_id else bm₁

/-- The loop of `BlockManager.deallocate` over a list of block ids. -/
def deallocLoop (bm : BlockManager) : List Nat → BlockManager
  | [] => bm
  | bid :: rest => deallocLoop (deallocStep bm bid) rest

/-- `BlockManager.deallocate(seq)`: walk the block table in reverse, then
clear `num_cached_tokens` and the block table. -/
def deallocate (bm : BlockManager) (seq : Sequence) : BlockManager × Sequence :=
  (deallocLoop bm seq.block_table.reverse,
   { seq with num_cached_tokens := 0, block_table := [] })

/-- `BlockManager.can_append(seq)`: one free block is needed exactly when the
present length is `1 mod block_size`. -/
def can_append (bm : BlockManager) (seq : Sequence) : Bool :=
  (if seq.num_tokens % bm.block_size = 1 then 1 else 0) ≤ bm.free_block_ids.length

/-- The token slice hashed by `may_append` when the last block just filled:
`seq.block(seq.num_blocks - 1)` (line 150 of `block_manager.py`). -/
def lastBlockTokens (bm : BlockManager) (seq : Sequence) : List Nat :=
  seq.block bm.block_size (seq.num_blocks bm.block_size - 1)

/-- The chain prefix used by `may_append`:
`blocks[block_table[-2]].hash if len(block_table) > 1 else -1` (line 151). -/
def lastPfx (bm : BlockManager) (seq : Sequence) : Int :=
  if 1 < seq.block_table.length then
    (blockAt bm (seq.block_table.getD (seq.block_table.length - 2) 0)).hash
  else -1

/-- `BlockManager.may_append(seq)` (`block_manager.py` lines 136-157); a
failing `assert`, or `block_table[-1]` on an empty table, aborts. -/
def may_append (bm : BlockManager) (seq : Sequence) : Option (BlockManager × Sequence) :=
  match seq.block_table.getLast? with
  | none => none
  | some lastId =>
    if seq.num_tokens % bm.block_size = 1 then
      if (blockAt bm lastId).hash = -1 then none
      else
        match bm.free_block_ids with
        | [] => none
        | bid :: _ =>
          match _allocate_block bm bid with
          | none => none
          | some bm₁ => some (bm₁, { seq with block_table := seq.block_table ++ [bid] })
    else if seq.num_tokens % bm.block_size = 0 then
      if (blockAt bm lastId).hash ≠ -1 then none
      else
        some ({ setBlock bm lastId
                  (fun b => b.update (compute_hash (lastBlockTokens bm seq) (lastPfx bm seq))
                    (lastBlockTokens bm seq)) with
                hash_to_block_id :=
                  dictSet bm.hash_to_block_id
                    (compute_hash (lastBlockTokens bm seq) (lastPfx bm seq))
                    (blockAt bm lastId).block_id },
              seq)
    else
      if (blockAt bm lastId).hash ≠ -1 then none else some (bm, seq)

/-- A block manager together with the sequences that have been created, the
state on which the scheduler drives the block-manager operations. -/
structure SysState where
  bm : BlockManager
  seqs : List Sequence
deriving DecidableEq

/-- The block-manager operations as the scheduler performs them, indexing
sequences by creation order. -/
inductive Op where
  | newSeq (token_ids : List Nat)
  | alloc (i : Nat)
  | dealloc (i : Nat)
  | appendTok (i : Nat) (tok : Nat)
  | mayAppend (i : Nat)
deriving DecidableEq, Repr

/-- Apply one operation.  `alloc` is gated by `can_allocate` and `mayAppend`
by `can_append`, exactly as the scheduler gates them (`scheduler.py` lines
38, 61); the operations' own asserts abort via `Option`. -/
def applyOp (s : SysState) : Op → Option SysState
  | .newSeq ts =>
    if ts = [] then none
    else some { s with seqs := s.seqs ++ [Sequence.make s.seqs.length ts 64 false] }
  | .alloc i =>
    match s.seqs[i]? with
    | none => none
    | some seq =>
      if can_allocate s.bm seq then
        match allocate s.bm seq with
        | none => none
        | some (bm', seq') => some ⟨bm', s.seqs.set i seq'⟩
      else none
  | .dealloc i =>
    match s.seqs[i]? with
    | none => none
    | some seq =>
      let (bm', seq') := deallocate s.bm seq
      some ⟨bm', s.seqs.set i seq'⟩
  | .appendTok i tok =>
    match s.seqs[i]? with
    | none => none
    | some seq => some { s with seqs := s.seqs.set i (seq.append_token tok) }
  | .mayAppend i =>
    match s.seqs[i]? with
    | none => none
    | some seq =>
      if can_append s.bm seq then
        match may_append s.bm seq with
        | none => none
        | some (bm', seq') => some ⟨bm', s.seqs.set i seq'⟩
      else none

/-- Run a list of operations. -/
def runOps : SysState → List Op → Option SysState
  | s, [] => some s
  | s, op :: ops =>
    match applyOp s op with
    | none => none
    | some s' => runOps s' ops

/-- The initial system state: a fresh pool, no sequences. -/
def initState (num_blocks block_size : Nat) : Option SysState :=
  match BlockManager.init num_blocks block_size with
  | none => none
  | some bm => some ⟨bm, []⟩

/-- A state is reachable when some operation run from the fresh pool produces
it. -/
def Reachable (num_blocks block_size : Nat) (s : SysState) : Prop :=
  ∃ s₀ ops, initState num_blocks block_size = some s₀ ∧ runOps s₀ ops = some s

instance : Inhabited Sequence := ⟨Sequence.make 0 [0] 64 false⟩

/-- The scheduler, `scheduler.py` `Scheduler.__init__`: configured budgets,
the block manager, and the two deques (lists, head = left end). -/
structure Scheduler where
  max_num_seqs : Nat
  max_num_batched_tokens : Nat
  eos : Nat
  block_manager : BlockManager
  waiting : List Sequence
  running : List Sequence
deriving DecidableEq

/-- `Scheduler.add(seq)`. -/
def Scheduler.add (st : Scheduler) (seq : Sequence) : Scheduler :=
  { st with waiting := st.waiting ++ [seq] }

/-- `Scheduler.is_finished()`. -/
def Scheduler.is_finished (st : Scheduler) : Bool :=
  st.waiting.isEmpty && st.running.isEmpty

/-- `Scheduler.preempt(seq)`: status to Waiting, deallocate, push to the
front of `waiting`.  Returns the updated block manager and waiting queue. -/
def preempt (bm : BlockManager) (waiting : List Sequence) (seq : Sequence) :
    BlockManager × List Sequence :=
  let (bm', seq') := deallocate bm { seq with status := .waiting }
  (bm', seq' :: waiting)

/-- The prefill `while` loop of `Scheduler.schedule` (`scheduler.py` lines
36-48).  Arguments: pool, waiting queue, `num_seqs`, `num_batched_tokens`,
scheduled accumulator; returns those after the loop. -/
def prefillLoop (maxNumSeqs maxBatchedTokens : Nat) :
    BlockManager → List Sequence → Nat → Nat → List Sequence →
    Option (BlockManager × List Sequence × Nat × Nat × List Sequence)
  | bm, [], n, t, acc => some (bm, [], n, t, acc)
  | bm, s :: rest, n, t, acc =>
    if maxNumSeqs ≤ n then some (bm, s :: rest, n, t, acc)
    else if maxBatchedTokens < t + s.num_tokens || !can_allocate bm s then
      some (bm, s :: rest, n, t, acc)
    else
      match allocate bm s with
      | none => none
      | some (bm', s₁) =>
        let s₂ := { s₁ with status := SequenceStatus.running }
        prefillLoop maxNumSeqs maxBatchedTokens bm' rest (n + 1)
          (t + (s₂.num_tokens - s₂.num_cached_tokens)) (acc ++ [s₂])

/-- The inner preemption `while` loop of the decode phase (`scheduler.py`
lines 61-70), with the rest of the running queue passed reversed (tail
first).  Returns the pool, waiting queue, remaining reversed running queue,
and whether `seq` can proceed (`false` = it preempted itself). -/
def preemptLoopAux : BlockManager → List Sequence → Sequence → List Sequence →
    BlockManager × List Sequence × List Sequence × Bool
  | bm, waiting, seq, [] =>
    if can_append bm seq then (bm, waiting, [], true)
    else
      let p := preempt bm waiting seq
      (p.1, p.2, [], false)
  | bm, waiting, seq, victim :: rest =>
    if can_append bm seq then (bm, waiting, victim :: rest, true)
    else
      let p := preempt bm waiting victim
      preemptLoopAux p.1 p.2 seq rest

/-- The outer decode `while` loop of `Scheduler.schedule` (`scheduler.py`
lines 58-75), written with explicit fuel so that it reduces by computation.
Every iteration pops the head of `running` and preemption only shrinks it, so
fuel `running.length` (what `schedule` passes) never runs out; the fuel-out
branch returns `none` like any aborted run.  Arguments: pool, waiting,
running, `num_seqs`, scheduled accumulator; returns pool, waiting, leftover
running, scheduled. -/
def decodeLoop (maxNumSeqs : Nat) :
    Nat → BlockManager → List Sequence → List Sequence → Nat → List Sequence →
    Option (BlockManager × List Sequence × List Sequence × List Sequence)
  | _, bm, w, [], _, acc => some (bm, w, [], acc)
  | 0, _, _, _ :: _, _, _ => none
  | fuel + 1, bm, w, s :: rest, n, acc =>
    if maxNumSeqs ≤ n then some (bm, w, s :: rest, acc)
    else
      let r := preemptLoopAux bm w s rest.reverse
      if r.2.2.2 then
        match may_append r.1 s with
        | none => none
        | some (bm₂, s') =>
          decodeLoop maxNumSeqs fuel bm₂ r.2.1 r.2.2.1.reverse (n + 1) (acc ++ [s'])
      else
        decodeLoop maxNumSeqs fuel r.1 r.2.1 r.2.2.1.reverse n acc

/-- `Scheduler.schedule()`: try prefill; on any admission return the prefill
batch, otherwise run the decode phase.  `none` models the final
`assert scheduled_seqs` failing (and any aborted inner operation). -/
def schedule (st : Scheduler) : Option (List Sequence × Bool × Scheduler) :=
  match prefillLoop st.max_num_seqs st.max_num_batched_tokens st.block_manager
      st.waiting 0 0 [] with
  | none => none
  | some (bm₁, wrest, _, _, scheduled) =>
    if scheduled ≠ [] then
      some (scheduled, true,
        { st with
          block_manager := bm₁
          waiting := wrest
          running := st.running ++ scheduled })
    else
      match decodeLoop st.max_num_seqs st.running.length bm₁ wrest st.running 0 [] with
      | none => none
      | some (bm₂, w₂, leftover, scheduled₂) =>
        if scheduled₂ = [] then none
        else
          some (scheduled₂, false,
            { st with
              block_manager := bm₂
              waiting := w₂
              running := scheduled₂ ++ leftover })

/-- One `(seq, token_id)` iteration of `Scheduler.postprocess`.  In the
source the batch aliases objects held in `running`; here the batch entry is
identified by its `seq_id` and the update is performed on the queue. -/
def postprocessPair (eos : Nat) (bm : BlockManager) (running : List Sequence)
    (sid tok : Nat) : BlockManager × List Sequence :=
  match running.find? (fun q => q.seq_id == sid) with
  | none => (bm, running)
  | some q =>
    let q₁ := q.append_token tok
    if (!q₁.ignore_eos && tok == eos)
        || ((q₁.num_completion_tokens : Int) == q₁.max_tokens) then
      let q₂ := { q₁ with status := SequenceStatus.finished }
      ((deallocate bm q₂).1, running.filter fun r => r.seq_id != sid)
    else
      (bm, running.map fun r => if r.seq_id == sid then q₁ else r)

/-- The loop of `Scheduler.postprocess` over the zipped batch. -/
def postprocessLoop (eos : Nat) : BlockManager → List Sequence → List (Nat × Nat) →
    BlockManager × List Sequence
  | bm, running, [] => (bm, running)
  | bm, running, (sid, tok) :: rest =>
    let r := postprocessPair eos bm running sid tok
    postprocessLoop eos r.1 r.2 rest

/-- `Scheduler.postprocess(seqs, token_ids)`: append each sampled token; a
sequence finishes on EOS (unless `ignore_eos`) or when
`num_completion_tokens == max_tokens`; finished sequences are deallocated and
removed from `running`. -/
def Scheduler.postprocess (st : Scheduler) (pairs : List (Nat × Nat)) : Scheduler :=
  let r := postprocessLoop st.eos st.block_manager st.running pairs
  { st with block_manager := r.1, running := r.2 }

/-- Total number of occurrences of block id `b` across the block tables of
all sequences. -/
def tableCount (seqs : List Sequence) (b : Nat) : Nat :=
  (seqs.map fun q => q.block_table.count b).sum

/-- Structural well-formedness of the pool: the free deque has no
duplicates, free and used ids partition `0..num_blocks`, free blocks have
`ref_count = 0`, used blocks have `ref_count ≥ 1`, the dedup index stores
valid ids, and `blocks[i].block_id = i`. -/
structure BMInv (bm : BlockManager) : Prop where
  free_nodup : bm.free_block_ids.Nodup
  free_lt : ∀ b ∈ bm.free_block_ids, b < bm.blocks.length
  used_lt : ∀ b ∈ bm.used_block_ids, b < bm.blocks.length
  cover : ∀ b < bm.blocks.length, b ∈ bm.free_block_ids ∨ b ∈ bm.used_block_ids
  disj : ∀ b ∈ bm.free_block_ids, b ∉ bm.used_block_ids
  free_ref : ∀ b ∈ bm.free_block_ids, refAt bm b = 0
  used_ref : ∀ b ∈ bm.used_block_ids, 1 ≤ refAt bm b
  dict_lt : ∀ p ∈ bm.hash_to_block_id, p.2 < bm.blocks.length
  ids : ∀ i < bm.blocks.length, (blockAt bm i).block_id = i

instance (bm : BlockManager) : Decidable (BMInv bm) :=
  decidable_of_iff
    (bm.free_block_ids.Nodup ∧
      (∀ b ∈ bm.free_block_ids, b < bm.blocks.length) ∧
      (∀ b ∈ bm.used_block_ids, b < bm.blocks.length) ∧
      (∀ b < bm.blocks.length, b ∈ bm.free_block_ids ∨ b ∈ bm.used_block_ids) ∧
      (∀ b ∈ bm.free_block_ids, b ∉ bm.used_block_ids) ∧
      (∀ b ∈ bm.free_block_ids, refAt bm b = 0) ∧
      (∀ b ∈ bm.used_block_ids, 1 ≤ refAt bm b) ∧
      (∀ p ∈ bm.hash_to_block_id, p.2 < bm.blocks.length) ∧
      (∀ i < bm.blocks.length, (blockAt bm i).block_id = i))
    ⟨fun h => ⟨h.1, h.2.1, h.2.2.1, h.2.2.2.1, h.2.2.2.2.1, h.2.2.2.2.2.1,
        h.2.2.2.2.2.2.1, h.2.2.2.2.2.2.2.1, h.2.2.2.2.2.2.2.2⟩,
      fun h => ⟨h.free_nodup, h.free_lt, h.used_lt, h.cover, h.disj, h.free_ref,
        h.used_ref, h.dict_lt, h.ids⟩⟩

/-- Ref-count bookkeeping: every block's `ref_count` equals the total number
of occurrences of its id across all block tables. -/
def RefInv (s : SysState) : Prop :=
  ∀ b, refAt s.bm b = (tableCount s.seqs b : Int)

/-- Every block-table entry is a valid block id. -/
def SeqInv (s : SysState) : Prop :=
  ∀ q ∈ s.seqs, ∀ b ∈ q.block_table, b < s.bm.blocks.length

/-- The full system invariant. -/
def FullInv (s : SysState) : Prop :=
  BMInv s.bm ∧ RefInv s ∧ SeqInv s

/-- A throwaway state used only as the `Option.getD` default below; every use
is guarded by an equation proving the option is `some`. -/
def emptySys : SysState := ⟨⟨0, [], [], [], ∅⟩, []⟩

/-- The allocate loop with the carried chained hash and sticky flag exposed
in the result, run from given initial carries; `allocate` runs it from
`h = -1`, `cache_miss = False` over all logical block indices. -/
def allocRun : BlockManager → Sequence → Int → Bool → List Nat →
    Option (BlockManager × Sequence × Int × Bool)
  | bm, seq, h, m, [] => some (bm, seq, h, m)
  | bm, seq, h, m, i :: rest =>
    match allocStep bm seq h m i with
    | none => none
    | some (bm', seq', h', m') => allocRun bm' seq' h' m' rest

/-- The admission chain of the prefill phase: each admitted head sequence
satisfied the full-length token-budget check and `can_allocate`, was
allocated, had its status set to Running, and contributed
`num_tokens - num_cached_tokens` to the running token total. -/
inductive AdmChain (maxBT : Nat) : BlockManager → Nat → List Sequence →
    List Sequence → BlockManager → Nat → Prop where
  | nil : ∀ bm t, AdmChain maxBT bm t [] [] bm t
  | cons : ∀ bm t s rest adm bm₁ s₁ bm' t',
      t + s.num_tokens ≤ maxBT →
      can_allocate bm s = true →
      allocate bm s = some (bm₁, s₁) →
      AdmChain maxBT bm₁ (t + (s₁.num_tokens - s₁.num_cached_tokens)) rest adm bm' t' →
      AdmChain maxBT bm t (s :: rest) ({ s₁ with status := SequenceStatus.running } :: adm) bm' t'

/-- Spec scenario "prefix sharing" (block size 4, 8 blocks): admit sequence A
with prompt `[1..8,9]`, then B with prompt `[1..8,10]`. -/
def prefixShareOps : List Op :=
  [.newSeq [1,2,3,4,5,6,7,8,9], .alloc 0, .newSeq [1,2,3,4,5,6,7,8,10], .alloc 1]

def prefixShareState : SysState :=
  ((initState 8 4).bind fun s => runOps s prefixShareOps).getD emptySys

/-- A reachable scenario (block size 2, 4 blocks) in which the dedup index
ends up mapping both the first-block hash and the second-block hash of the
prompt `[7,7,7,7]` to the same physical block 1, so that allocating that
prompt hits block 1 twice and its table becomes `[1, 1]`. -/
def dupOps : List Op :=
  [.newSeq [7,7], .alloc 0, .newSeq [7,7,7], .alloc 1, .appendTok 1 7, .mayAppend 1,
   .dealloc 1, .dealloc 0, .newSeq [7], .alloc 2, .appendTok 2 7, .mayAppend 2, .dealloc 2,
   .newSeq [9,9], .alloc 3, .newSeq [8,8], .alloc 4, .newSeq [6,6], .alloc 5,
   .newSeq [5,5], .alloc 6, .dealloc 4, .newSeq [7,7], .alloc 7, .dealloc 3, .dealloc 5,
   .newSeq [7,7,7,7], .alloc 8]

def dupState : SysState :=
  ((initState 4 2).bind fun s => runOps s dupOps).getD emptySys

/-- A reachable scenario (block size 2, 4 blocks) in which a stale dedup
entry re-binds a live block's hash across two different prefix chains:
sequence 2 (`[8,8,7,7]`) owns blocks `[3, 1]`, and sequence 3 (`[9,9,7,7]`)
then hits block 1 through the stale entry published for the `[9,9]`-chain,
overwriting its hash. -/
def staleHashOps : List Op :=
  [.newSeq [9,9,7,7], .alloc 0, .dealloc 0, .newSeq [5], .alloc 1,
   .newSeq [8,8,7,7], .alloc 2, .dealloc 1, .newSeq [9,9,7,7], .alloc 3]

def staleHashState : SysState :=
  ((initState 4 2).bind fun s => runOps s staleHashOps).getD emptySys

/-- A reachable scenario (block size 2, 5 blocks) that leaves the dedup
index with a corrupted entry for the first-block hash of `[8,8]` (pointing at
a block now holding `[6,6]`) while the entry for the chained hash of
`[8,8,7,7]`'s second block still points at block 2, which holds `[7,7]`
intact in the free pool. -/
def stickyOps : List Op :=
  [.newSeq [8,8,7,7], .alloc 0, .newSeq [8,8,7], .alloc 1, .appendTok 1 7, .mayAppend 1,
   .newSeq [8], .alloc 2, .appendTok 2 8, .mayAppend 2, .dealloc 2, .newSeq [5,5], .alloc 3,
   .newSeq [6,6], .alloc 4, .dealloc 0, .dealloc 3, .dealloc 1, .newSeq [8,8,7,7]]

def stickyPre : SysState :=
  ((initState 5 2).bind fun s => runOps s stickyOps).getD emptySys

/-- The freshly created sequence `[8,8,7,7]` of the sticky scenario. -/
def stickyT : Sequence := stickyPre.seqs.getD 5 (Sequence.make 0 [0] 64 false)

/-- The state after the first allocate-loop iteration (logical block 0, a
cache miss) of allocating `stickyT`. -/
def stickyMid : BlockManager × Sequence × Int × Bool :=
  (allocStep stickyPre.bm stickyT (-1) false 0).getD (stickyPre.bm, stickyT, -1, false)

/-- The final result of allocating `stickyT` in the sticky scenario. -/
def stickyFin : BlockManager × Sequence :=
  (allocate stickyPre.bm stickyT).getD (stickyPre.bm, stickyT)

/-- Block size 2, 2 blocks: admit `[1,2]` and append one decoded token, as
`postprocess` does; the new token opens a new logical block. -/
def openBlockOps : List Op := [.newSeq [1,2], .alloc 0, .appendTok 0 3]

def openBlockState : SysState :=
  ((initState 2 2).bind fun s => runOps s openBlockOps).getD emptySys

/-- The state just before the decoded token is appended: prompt `[1,2]`
allocated its single block. -/
def preOpenState : SysState :=
  ((initState 2 2).bind fun s => runOps s [.newSeq [1,2], .alloc 0]).getD emptySys

def preOpenSeq : Sequence := preOpenState.seqs.getD 0 (Sequence.make 0 [0] 64 false)

/-- A fresh pool of 2 blocks of size 2 and a two-token prompt, used to
witness the allocate/deallocate round trip. -/
def c6BM : BlockManager := (BlockManager.init 2 2).getD ⟨0, [], [], [], ∅⟩

def c6Seq : Sequence := Sequence.make 0 [1, 2] 64 false

def c6Res : BlockManager × Sequence := (allocate c6BM c6Seq).getD (c6BM, c6Seq)

/-- A scheduler over a fresh pool of 4 blocks of size 2, with one waiting
three-token prompt, used to witness the prefill admission theorem. -/
def c8Sched : Scheduler :=
  { max_num_seqs := 4
    max_num_batched_tokens := 16
    eos := 0
    block_manager := (BlockManager.init 4 2).getD ⟨0, [], [], [], ∅⟩
    waiting := [Sequence.make 0 [1, 2, 3] 64 false]
    running := [] }

def c8Res : List Sequence × Bool × Scheduler :=
  (schedule c8Sched).getD ([], false, c8Sched)

/-- A scheduler with the default budgets over a pool of 2 blocks of size 2;
a prompt of 4 tokens fills the pool exactly. -/
def crashSched0 : Scheduler :=
  ⟨512, 16384, 99, (BlockManager.init 2 2).getD ⟨0, [], [], [], ∅⟩, [], []⟩

def crashSched1 : Scheduler := crashSched0.add (Sequence.make 0 [3,3,3,3] 64 false)

/-- The state after the prefill tick of `crashSched1`. -/
def crashSched2 : Scheduler := ((schedule crashSched1).getD ([], true, crashSched1)).2.2

/-- The state after `postprocess` appends the sampled token: one running
sequence of 5 tokens holding both blocks, free pool empty. -/
def crashSched3 : Scheduler := crashSched2.postprocess [(0, 5)]


end NanoVllm

namespace NanoVllm

theorem setBlock_block_size (bm : BlockManager) (i : Nat) (f : Block → Block) :
    (setBlock bm i f).block_size = bm.block_size := rfl

theorem setBlock_free (bm : BlockManager) (i : Nat) (f : Block → Block) :
    (setBlock bm i f).free_block_ids = bm.free_block_ids := rfl

theorem setBlock_used (bm : BlockManager) (i : Nat) (f : Block → Block) :
    (setBlock bm i f).used_block_ids = bm.used_block_ids := rfl

theorem setBlock_dict (bm : BlockManager) (i : Nat) (f : Block → Block) :
    (setBlock bm i f).hash_to_block_id = bm.hash_to_block_id := rfl

theorem setBlock_length (bm : BlockManager) (i : Nat) (f : Block → Block) :
    (setBlock bm i f).blocks.length = bm.blocks.length := by
  simp [setBlock]

theorem blockAt_setBlock_self (bm : BlockManager) (i : Nat) (f : Block → Block)
    (h : i < bm.blocks.length) :
    blockAt (setBlock bm i f) i = f (blockAt bm i) := by
  simp only [blockAt, setBlock]
  rw [List.getD_eq_getElem?_getD, List.getElem?_set_self h, List.getD_eq_getElem?_getD,
    List.getElem?_eq_getElem h]
  rfl

theorem blockAt_setBlock_ne (bm : BlockManager) (i j : Nat) (f : Block → Block)
    (h : j ≠ i) :
    blockAt (setBlock bm i f) j = blockAt bm j := by
  simp only [blockAt, setBlock]
  rw [List.getD_eq_getElem?_getD, List.getElem?_set_ne (Ne.symm h),
    ← List.getD_eq_getElem?_getD]

theorem blockAt_oob (bm : BlockManager) (i : Nat) (h : ¬ i < bm.blocks.length) :
    blockAt bm i = default := by
  simp only [blockAt]
  rw [List.getD_eq_getElem?_getD, List.getElem?_eq_none (Nat.le_of_not_lt h)]
  rfl

theorem dictGet_cases (d : List (Int × Nat)) (h : Int) :
    dictGet d h = -1 ∨ ∃ p, p ∈ d ∧ dictGet d h = (p.2 : Int) := by
  unfold dictGet
  cases hfind : d.find? (fun p => p.1 == h) with
  | none => exact Or.inl rfl
  | some p => exact Or.inr ⟨p, List.mem_of_find?_eq_some hfind, rfl⟩

theorem claimBlock_free (bm : BlockManager) (bid : Nat) :
    (claimBlock bm bid).free_block_ids = bm.free_block_ids.erase bid := rfl

theorem claimBlock_used (bm : BlockManager) (bid : Nat) :
    (claimBlock bm bid).used_block_ids = insert bid bm.used_block_ids := rfl

theorem claimBlock_dict (bm : BlockManager) (bid : Nat) :
    (claimBlock bm bid).hash_to_block_id = bm.hash_to_block_id := rfl

theorem claimBlock_block_size (bm : BlockManager) (bid : Nat) :
    (claimBlock bm bid).block_size = bm.block_size := rfl

theorem claimBlock_length (bm : BlockManager) (bid : Nat) :
    (claimBlock bm bid).blocks.length = bm.blocks.length :=
  setBlock_length bm bid Block.reset

theorem blockAt_claimBlock (bm : BlockManager) (bid b : Nat) :
    blockAt (claimBlock bm bid) b = blockAt (setBlock bm bid Block.reset) b := rfl

theorem refAt_claimBlock_self (bm : BlockManager) (bid : Nat)
    (h : bid < bm.blocks.length) : refAt (claimBlock bm bid) bid = 1 := by
  show (blockAt (claimBlock bm bid) bid).ref_count = 1
  rw [blockAt_claimBlock, blockAt_setBlock_self bm bid Block.reset h]
  rfl

theorem refAt_claimBlock_ne (bm : BlockManager) (bid b : Nat) (h : b ≠ bid) :
    refAt (claimBlock bm bid) b = refAt bm b := by
  show (blockAt (claimBlock bm bid) b).ref_count = refAt bm b
  rw [blockAt_claimBlock, blockAt_setBlock_ne bm bid b Block.reset h]
  rfl

theorem alloc_block_some (bm : BlockManager) (bid : Nat) (h0 : refAt bm bid = 0) :
    _allocate_block bm bid = some (claimBlock bm bid) := by
  rw [_allocate_block, if_pos h0]

/-- `claimBlock` on a block taken from the free pool preserves the pool
invariant. -/
theorem claimBlock_inv (bm : BlockManager) (bid : Nat) (inv : BMInv bm)
    (hmem : bid ∈ bm.free_block_ids) : BMInv (claimBlock bm bid) := by
  have hlt : bid < bm.blocks.length := inv.free_lt bid hmem
  have hnu : bid ∉ bm.used_block_ids := inv.disj bid hmem
  constructor
  · rw [claimBlock_free]
    exact inv.free_nodup.erase bid
  · intro b hb
    rw [claimBlock_length]
    rw [claimBlock_free] at hb
    exact inv.free_lt b (List.mem_of_mem_erase hb)
  · intro b hb
    rw [claimBlock_length]
    rw [claimBlock_used] at hb
    rcases Finset.mem_insert.mp hb with h | h
    · exact h ▸ hlt
    · exact inv.used_lt b h
  · intro b hb
    rw [claimBlock_length] at hb
    rw [claimBlock_free, claimBlock_used]
    rcases inv.cover b hb with h | h
    · by_cases hbe : b = bid
      · subst hbe
        exact Or.inr (Finset.mem_insert_self b _)
      · exact Or.inl ((List.mem_erase_of_ne hbe).mpr h)
    · exact Or.inr (Finset.mem_insert_of_mem h)
  · intro b hb
    rw [claimBlock_free] at hb
    rw [claimBlock_used]
    have hmem' := inv.free_nodup.mem_erase_iff.mp hb
    intro hcon
    rcases Finset.mem_insert.mp hcon with h | h
    · exact hmem'.1 h
    · exact inv.disj b hmem'.2 h
  · intro b hb
    rw [claimBlock_free] at hb
    have hmem' := inv.free_nodup.mem_erase_iff.mp hb
    rw [refAt_claimBlock_ne bm bid b hmem'.1]
    exact inv.free_ref b hmem'.2
  · intro b hb
    rw [claimBlock_used] at hb
    rcases Finset.mem_insert.mp hb with h | h
    · subst h
      rw [refAt_claimBlock_self bm b hlt]
    · have hne : b ≠ bid := fun hc => hnu (hc ▸ h)
      rw [refAt_claimBlock_ne bm bid b hne]
      exact inv.used_ref b h
  · intro p hp
    rw [claimBlock_length]
    rw [claimBlock_dict] at hp
    exact inv.dict_lt p hp
  · intro i hi
    rw [claimBlock_length] at hi
    rw [blockAt_claimBlock]
    by_cases hbe : i = bid
    · subst hbe
      rw [blockAt_setBlock_self bm i Block.reset hi]
      exact inv.ids i hi
    · rw [blockAt_setBlock_ne bm bid i Block.reset hbe]
      exact inv.ids i hi

theorem setBlock_oob (bm : BlockManager) (i : Nat) (f : Block → Block)
    (h : bm.blocks.length ≤ i) : setBlock bm i f = bm := by
  simp [setBlock, List.set_eq_of_length_le h]

theorem refAt_setBlock_preserve (bm : BlockManager) (i : Nat) (f : Block → Block)
    (href : ∀ b, (f b).ref_count = b.ref_count) :
    ∀ b, refAt (setBlock bm i f) b = refAt bm b := by
  intro b
  by_cases hbi : b = i
  · subst hbi
    by_cases hlt : b < bm.blocks.length
    · show (blockAt (setBlock bm b f) b).ref_count = (blockAt bm b).ref_count
      rw [blockAt_setBlock_self bm b f hlt, href]
    · rw [setBlock_oob bm b f (Nat.le_of_not_lt hlt)]
  · show (blockAt (setBlock bm i f) b).ref_count = (blockAt bm b).ref_count
    rw [blockAt_setBlock_ne bm i b f hbi]

/-- Mutating one block with a function that preserves `ref_count` and
`block_id` preserves the pool invariant. -/
theorem BMInv_setBlock (bm : BlockManager) (i : Nat) (f : Block → Block)
    (inv : BMInv bm)
    (href : ∀ b, (f b).ref_count = b.ref_count)
    (hid : ∀ b, (f b).block_id = b.block_id) :
    BMInv (setBlock bm i f) := by
  have hre := refAt_setBlock_preserve bm i f href
  constructor
  · exact inv.free_nodup
  · intro b hb
    rw [setBlock_length]
    exact inv.free_lt b hb
  · intro b hb
    rw [setBlock_length]
    exact inv.used_lt b hb
  · intro b hb
    rw [setBlock_length] at hb
    exact inv.cover b hb
  · exact inv.disj
  · intro b hb
    rw [hre b]
    exact inv.free_ref b hb
  · intro b hb
    rw [hre b]
    exact inv.used_ref b hb
  · intro p hp
    rw [setBlock_length]
    exact inv.dict_lt p hp
  · intro j hj
    rw [setBlock_length] at hj
    by_cases hji : j = i
    · subst hji
      rw [blockAt_setBlock_self bm j f hj, hid]
      exact inv.ids j hj
    · rw [blockAt_setBlock_ne bm i j f hji]
      exact inv.ids j hj

/-- Publishing a valid id in the dedup index preserves the pool invariant. -/
theorem BMInv_dictSet (bm : BlockManager) (h : Int) (v : Nat) (inv : BMInv bm)
    (hv : v < bm.blocks.length) :
    BMInv { bm with hash_to_block_id := dictSet bm.hash_to_block_id h v } := by
  constructor
  · exact inv.free_nodup
  · exact inv.free_lt
  · exact inv.used_lt
  · exact inv.cover
  · exact inv.disj
  · exact inv.free_ref
  · exact inv.used_ref
  · intro p hp
    rcases List.mem_cons.mp hp with h' | h'
    · rw [h']
      exact hv
    · exact inv.dict_lt p (List.mem_of_mem_filter h')
  · exact inv.ids

/-- Incrementing the `ref_count` of a used block preserves the pool
invariant. -/
theorem BMInv_bumpRef (bm : BlockManager) (bid : Nat) (inv : BMInv bm)
    (hused : bid ∈ bm.used_block_ids) :
    BMInv (setBlock bm bid fun b => { b with ref_count := b.ref_count + 1 }) ∧
    refAt (setBlock bm bid fun b => { b with ref_count := b.ref_count + 1 }) bid
      = refAt bm bid + 1 ∧
    (∀ b, b ≠ bid →
      refAt (setBlock bm bid fun b => { b with ref_count := b.ref_count + 1 }) b
        = refAt bm b) := by
  have hlt : bid < bm.blocks.length := inv.used_lt bid hused
  have hnf : bid ∉ bm.free_block_ids := fun hc => inv.disj bid hc hused
  have hself : refAt (setBlock bm bid fun b => { b with ref_count := b.ref_count + 1 }) bid
      = refAt bm bid + 1 := by
    show (blockAt (setBlock bm bid fun b => { b with ref_count := b.ref_count + 1 }) bid).ref_count
      = (blockAt bm bid).ref_count + 1
    rw [blockAt_setBlock_self bm bid _ hlt]
  have hother : ∀ b, b ≠ bid →
      refAt (setBlock bm bid fun b => { b with ref_count := b.ref_count + 1 }) b
        = refAt bm b := by
    intro b hb
    show (blockAt (setBlock bm bid _) b).ref_count = (blockAt bm b).ref_count
    rw [blockAt_setBlock_ne bm bid b _ hb]
  refine ⟨?_, hself, hother⟩
  constructor
  · exact inv.free_nodup
  · intro b hb
    rw [setBlock_length]
    exact inv.free_lt b hb
  · intro b hb
    rw [setBlock_length]
    exact inv.used_lt b hb
  · intro b hb
    rw [setBlock_length] at hb
    exact inv.cover b hb
  · exact inv.disj
  · intro b hb
    have hbne : b ≠ bid := fun hc => hnf (hc ▸ hb)
    rw [hother b hbne]
    exact inv.free_ref b hb
  · intro b hb
    by_cases hbe : b = bid
    · subst hbe
      rw [hself]
      have := inv.used_ref b hb
      omega
    · rw [hother b hbe]
      exact inv.used_ref b hb
  · intro p hp
    rw [setBlock_length]
    exact inv.dict_lt p hp
  · intro j hj
    rw [setBlock_length] at hj
    by_cases hje : j = bid
    · subst hje
      rw [blockAt_setBlock_self bm j _ hj]
      exact inv.ids j hj
    · rw [blockAt_setBlock_ne bm bid j _ hje]
      exact inv.ids j hj

/-- The tail of the allocate-loop body: invariant preserved, the block id is
appended to the table, refs and the pool partition untouched. -/
theorem allocFinish_char (bm : BlockManager) (seq : Sequence) (h : Int) (m : Bool)
    (bid : Nat) (tids : List Nat) (inv : BMInv bm) (hbid : bid < bm.blocks.length) :
    ∃ bm', allocFinish bm seq h m bid tids =
        (bm', { seq with block_table := seq.block_table ++ [bid] }, h, m) ∧
      BMInv bm' ∧ bm'.block_size = bm.block_size ∧
      bm'.blocks.length = bm.blocks.length ∧
      bm'.free_block_ids = bm.free_block_ids ∧
      bm'.used_block_ids = bm.used_block_ids ∧
      (∀ b, refAt bm' b = refAt bm b) := by
  by_cases hne : h = -1
  · refine ⟨bm, ?_, inv, rfl, rfl, rfl, rfl, fun b => rfl⟩
    simp [allocFinish, hne]
  · refine ⟨{ setBlock bm bid (fun b => b.update h tids) with
        hash_to_block_id := dictSet bm.hash_to_block_id h bid }, ?_, ?_, rfl, ?_, rfl, rfl, ?_⟩
    · simp [allocFinish, hne]
    · exact BMInv_dictSet (setBlock bm bid fun b => b.update h tids) h bid
        (BMInv_setBlock bm bid _ inv (fun b => rfl) (fun b => rfl))
        (by rw [setBlock_length]; exact hbid)
    · exact setBlock_length bm bid (fun b => b.update h tids)
    · exact refAt_setBlock_preserve bm bid (fun b => b.update h tids) (fun b => rfl)

/-- One iteration of the allocate loop: the invariant is preserved and
exactly one valid block id is appended to the table, whose `ref_count` rises
by one while all other refs are unchanged; all sequence fields other than the
block table and the cached-token count are untouched. -/
theorem allocStep_char (bm : BlockManager) (seq : Sequence) (h : Int) (m : Bool)
    (i : Nat) (bm' : BlockManager) (seq' : Sequence) (h' : Int) (m' : Bool)
    (inv : BMInv bm)
    (hstep : allocStep bm seq h m i = some (bm', seq', h', m')) :
    BMInv bm' ∧ bm'.block_size = bm.block_size ∧
    bm'.blocks.length = bm.blocks.length ∧
    ∃ bid, bid < bm.blocks.length ∧
      (∃ c, seq' = { seq with
                     block_table := seq.block_table ++ [bid]
                     num_cached_tokens := c }) ∧
      refAt bm' bid = refAt bm bid + 1 ∧
      (∀ b, b ≠ bid → refAt bm' b = refAt bm b) := by
  rw [allocStep] at hstep
  split at hstep
  · -- cache miss: take the head of the free pool
    split at hstep
    · exact absurd hstep (by simp)
    · rename_i bid rest hfree
      split at hstep
      · exact absurd hstep (by simp)
      · rename_i bm₁ halloc
        have hbidfree : bid ∈ bm.free_block_ids := by
          rw [hfree]
          exact List.mem_cons_self bid rest
        have hbm₁ : bm₁ = claimBlock bm bid := by
          have := (alloc_block_some bm bid (inv.free_ref bid hbidfree)).symm.trans halloc
          exact (Option.some.inj this).symm
        subst hbm₁
        rcases allocFinish_char (claimBlock bm bid) seq _ _ bid _
            (claimBlock_inv bm bid inv hbidfree)
            (by rw [claimBlock_length]; exact inv.free_lt bid hbidfree) with
          ⟨R, heqn, hinvR, hbs, hlen, _, _, hrefR⟩
        rw [heqn] at hstep
        simp only [Option.some.injEq, Prod.mk.injEq] at hstep
        obtain ⟨hbm, hseq, _, _⟩ := hstep
        subst hbm
        refine ⟨hinvR, by rw [hbs, claimBlock_block_size],
          by rw [hlen, claimBlock_length], bid, inv.free_lt bid hbidfree, ?_, ?_, ?_⟩
        · exact ⟨seq.num_cached_tokens, hseq.symm⟩
        · rw [hrefR bid, refAt_claimBlock_self bm bid (inv.free_lt bid hbidfree),
            inv.free_ref bid hbidfree]
          omega
        · intro b hb
          rw [hrefR b, refAt_claimBlock_ne bm bid b hb]
  · -- cache hit
    rename_i hnomiss
    have hfound : dictGet bm.hash_to_block_id (blockHash bm seq h i) ≠ -1 := by
      intro hc
      rw [stepMiss, hc] at hnomiss
      simp at hnomiss
    rcases dictGet_cases bm.hash_to_block_id (blockHash bm seq h i) with hcase | ⟨p, hp, hcase⟩
    · exact absurd hcase hfound
    have hbidlt : hitId bm seq h i < bm.blocks.length := by
      rw [hitId, hcase]
      simpa using inv.dict_lt p hp
    split at hstep
    · -- the matching block is currently used: bump its ref count
      rename_i hused
      rcases allocFinish_char
          (setBlock bm (hitId bm seq h i) fun b => { b with ref_count := b.ref_count + 1 })
          { seq with num_cached_tokens := seq.num_cached_tokens + bm.block_size }
          (blockHash bm seq h i) (stepMiss bm seq h m i) (hitId bm seq h i)
          (seq.block bm.block_size i) (BMInv_bumpRef bm _ inv hused).1
          (by rw [setBlock_length]; exact hbidlt) with
        ⟨R, heqn, hinvR, hbs, hlen, _, _, hrefR⟩
      rw [heqn] at hstep
      simp only [Option.some.injEq, Prod.mk.injEq] at hstep
      obtain ⟨hbm, hseq, _, _⟩ := hstep
      subst hbm
      refine ⟨hinvR, by rw [hbs, setBlock_block_size], by rw [hlen, setBlock_length],
        hitId bm seq h i, hbidlt, ?_, ?_, ?_⟩
      · exact ⟨seq.num_cached_tokens + bm.block_size, hseq.symm⟩
      · rw [hrefR _, (BMInv_bumpRef bm _ inv hused).2.1]
      · intro b hb
        rw [hrefR b, (BMInv_bumpRef bm _ inv hused).2.2 b hb]
    · -- the matching block sits in the free pool: re-claim it
      rename_i hnotused
      have hbidfree : hitId bm seq h i ∈ bm.free_block_ids := by
        rcases inv.cover _ hbidlt with hc | hc
        · exact hc
        · exact absurd hc hnotused
      split at hstep
      · exact absurd hstep (by simp)
      · rename_i bm₁ halloc
        have hbm₁ : bm₁ = claimBlock bm (hitId bm seq h i) := by
          have := (alloc_block_some bm _ (inv.free_ref _ hbidfree)).symm.trans halloc
          exact (Option.some.inj this).symm
        subst hbm₁
        rcases allocFinish_char (claimBlock bm (hitId bm seq h i))
            { seq with num_cached_tokens := seq.num_cached_tokens + bm.block_size }
            (blockHash bm seq h i) (stepMiss bm seq h m i) (hitId bm seq h i)
            (seq.block bm.block_size i) (claimBlock_inv bm _ inv hbidfree)
            (by rw [claimBlock_length]; exact hbidlt) with
          ⟨R, heqn, hinvR, hbs, hlen, _, _, hrefR⟩
        rw [heqn] at hstep
        simp only [Option.some.injEq, Prod.mk.injEq] at hstep
        obtain ⟨hbm, hseq, _, _⟩ := hstep
        subst hbm
        refine ⟨hinvR, by rw [hbs, claimBlock_block_size], by rw [hlen, claimBlock_length],
          hitId bm seq h i, hbidlt, ?_, ?_, ?_⟩
        · exact ⟨seq.num_cached_tokens + bm.block_size, hseq.symm⟩
        · rw [hrefR _, refAt_claimBlock_self bm _ hbidlt, inv.free_ref _ hbidfree]
          omega
        · intro b hb
          rw [hrefR b, refAt_claimBlock_ne bm _ b hb]

/-- The allocate loop: the invariant is preserved, a list `delta` of valid
ids is appended to the block table, each ref count rises by its multiplicity
in `delta`, and only the block table and the cached-token count of the
sequence change. -/
theorem allocLoop_char :
    ∀ (idxs : List Nat) (bm : BlockManager) (seq : Sequence) (h : Int) (m : Bool)
      (bm' : BlockManager) (seq' : Sequence), BMInv bm →
      allocLoop bm seq h m idxs = some (bm', seq') →
      BMInv bm' ∧ bm'.block_size = bm.block_size ∧
      bm'.blocks.length = bm.blocks.length ∧
      ∃ delta, (∀ b ∈ delta, b < bm.blocks.length) ∧
        (∃ c, seq' = { seq with
                       block_table := seq.block_table ++ delta
                       num_cached_tokens := c }) ∧
        (∀ b, refAt bm' b = refAt bm b + (delta.count b : Int)) := by
  intro idxs
  induction idxs with
  | nil =>
    intro bm seq h m bm' seq' inv hloop
    simp only [allocLoop, Option.some.injEq, Prod.mk.injEq] at hloop
    obtain ⟨hbm, hseq⟩ := hloop
    subst hbm
    subst hseq
    exact ⟨inv, rfl, rfl, [], by simp, ⟨seq.num_cached_tokens, by simp⟩, fun b => by simp⟩
  | cons i rest ih =>
    intro bm seq h m bm' seq' inv hloop
    rw [allocLoop] at hloop
    split at hloop
    · exact absurd hloop (by simp)
    · rename_i bm₁ seq₁ h₁ m₁ hstep
      rcases allocStep_char bm seq h m i bm₁ seq₁ h₁ m₁ inv hstep with
        ⟨hinv₁, hbs₁, hlen₁, bid, hbidlt, ⟨c₁, hseq₁⟩, hrefbid, hrefne⟩
      rcases ih bm₁ seq₁ h₁ m₁ bm' seq' hinv₁ hloop with
        ⟨hinv', hbs', hlen', delta, hdlt, ⟨c, hseq'⟩, href'⟩
      refine ⟨hinv', hbs'.trans hbs₁, hlen'.trans hlen₁, bid :: delta, ?_, ⟨c, ?_⟩, ?_⟩
      · intro b hb
        rcases List.mem_cons.mp hb with hbe | hb
        · exact hbe ▸ hbidlt
        · exact hlen₁ ▸ hdlt b hb
      · rw [hseq', hseq₁]
        simp
      · intro b
        rw [href' b]
        by_cases hbe : b = bid
        · subst hbe
          rw [hrefbid, List.count_cons_self]
          push_cast
          omega
        · rw [hrefne b hbe, List.count_cons_of_ne hbe]

/-- `BlockManager.allocate`: requires an empty block table; the invariant is
preserved and the resulting block table is exactly the freshly produced
`delta`. -/
theorem allocate_char (bm : BlockManager) (seq : Sequence) (bm' : BlockManager)
    (seq' : Sequence) (inv : BMInv bm)
    (halloc : allocate bm seq = some (bm', seq')) :
    seq.block_table = [] ∧
    BMInv bm' ∧ bm'.block_size = bm.block_size ∧
    bm'.blocks.length = bm.blocks.length ∧
    ∃ delta, (∀ b ∈ delta, b < bm.blocks.length) ∧
      (∃ c, seq' = { seq with block_table := delta, num_cached_tokens := c }) ∧
      (∀ b, refAt bm' b = refAt bm b + (delta.count b : Int)) := by
  rw [allocate] at halloc
  split at halloc
  · rename_i hempty
    rcases allocLoop_char _ bm seq _ _ bm' seq' inv halloc with
      ⟨hinv', hbs', hlen', delta, hdlt, ⟨c, hseq'⟩, href'⟩
    refine ⟨hempty, hinv', hbs', hlen', delta, hdlt, ⟨c, ?_⟩, href'⟩
    rw [hseq', hempty]
    simp
  · exact absurd halloc (by simp)


theorem deallocate_block_blocks (bm : BlockManager) (bid : Nat) :
    (_deallocate_block bm bid).blocks = bm.blocks := rfl

theorem deallocate_block_free (bm : BlockManager) (bid : Nat) :
    (_deallocate_block bm bid).free_block_ids = bm.free_block_ids ++ [bid] := rfl

theorem deallocate_block_used (bm : BlockManager) (bid : Nat) :
    (_deallocate_block bm bid).used_block_ids = bm.used_block_ids.erase bid := rfl

theorem deallocate_block_dict (bm : BlockManager) (bid : Nat) :
    (_deallocate_block bm bid).hash_to_block_id = bm.hash_to_block_id := rfl

theorem refAt_deallocate_block (bm : BlockManager) (bid b : Nat) :
    refAt (_deallocate_block bm bid) b = refAt bm b := rfl

theorem blockAt_deallocate_block (bm : BlockManager) (bid b : Nat) :
    blockAt (_deallocate_block bm bid) b = blockAt bm b := rfl

/-- One iteration of the deallocate loop on a block with positive ref count:
the invariant is preserved and exactly that ref count drops by one (the block
is returned to the free pool when it reaches zero). -/
theorem deallocStep_char (bm : BlockManager) (bid : Nat) (inv : BMInv bm)
    (hlt : bid < bm.blocks.length) (href : 1 ≤ refAt bm bid) :
    BMInv (deallocStep bm bid) ∧
    (deallocStep bm bid).block_size = bm.block_size ∧
    (deallocStep bm bid).blocks.length = bm.blocks.length ∧
    refAt (deallocStep bm bid) bid = refAt bm bid - 1 ∧
    (∀ b, b ≠ bid → refAt (deallocStep bm bid) b = refAt bm b) := by
  have hnf : bid ∉ bm.free_block_ids := by
    intro hc
    have := inv.free_ref bid hc
    omega
  have hused : bid ∈ bm.used_block_ids := by
    rcases inv.cover bid hlt with hc | hc
    · exact absurd hc hnf
    · exact hc
  have hself : refAt (setBlock bm bid fun b => { b with ref_count := b.ref_count - 1 }) bid
      = refAt bm bid - 1 := by
    show (blockAt (setBlock bm bid fun b => { b with ref_count := b.ref_count - 1 }) bid).ref_count
      = (blockAt bm bid).ref_count - 1
    rw [blockAt_setBlock_self bm bid (fun b => { b with ref_count := b.ref_count - 1 }) hlt]
  have hother : ∀ b, b ≠ bid →
      refAt (setBlock bm bid fun b => { b with ref_count := b.ref_count - 1 }) b = refAt bm b := by
    intro b hb
    show (blockAt (setBlock bm bid fun b => { b with ref_count := b.ref_count - 1 }) b).ref_count
      = (blockAt bm b).ref_count
    rw [blockAt_setBlock_ne bm bid b (fun b => { b with ref_count := b.ref_count - 1 }) hb]
  have hids₁ : ∀ i, i < bm.blocks.length →
      (blockAt (setBlock bm bid fun b => { b with ref_count := b.ref_count - 1 }) i).block_id
        = i := by
    intro i hi
    by_cases hie : i = bid
    · subst hie
      rw [blockAt_setBlock_self bm i (fun b => { b with ref_count := b.ref_count - 1 }) hi]
      exact inv.ids i hi
    · rw [blockAt_setBlock_ne bm bid i (fun b => { b with ref_count := b.ref_count - 1 }) hie]
      exact inv.ids i hi
  have hlen₁ : (setBlock bm bid fun b => { b with ref_count := b.ref_count - 1 }).blocks.length
      = bm.blocks.length := setBlock_length bm bid _
  have hd : deallocStep bm bid =
      if refAt (setBlock bm bid fun b => { b with ref_count := b.ref_count - 1 }) bid = 0 then
        _deallocate_block (setBlock bm bid fun b => { b with ref_count := b.ref_count - 1 }) bid
      else setBlock bm bid fun b => { b with ref_count := b.ref_count - 1 } := rfl
  by_cases hz : refAt (setBlock bm bid fun b => { b with ref_count := b.ref_count - 1 }) bid = 0
  · rw [hd, if_pos hz]
    refine ⟨?_, rfl, by rw [deallocate_block_blocks, hlen₁], ?_, ?_⟩
    · constructor
      · rw [deallocate_block_free]
        refine List.Nodup.append inv.free_nodup (List.nodup_singleton bid) ?_
        intro a ha hb
        rw [List.mem_singleton] at hb
        subst hb
        exact hnf ha
      · intro b hb
        rw [deallocate_block_free] at hb
        rw [deallocate_block_blocks, hlen₁]
        rcases List.mem_append.mp hb with h | h
        · exact inv.free_lt b h
        · rw [List.mem_singleton] at h
          exact h ▸ hlt
      · intro b hb
        rw [deallocate_block_used] at hb
        rw [deallocate_block_blocks, hlen₁]
        exact inv.used_lt b (Finset.mem_of_mem_erase hb)
      · intro b hb
        rw [deallocate_block_blocks, hlen₁] at hb
        rw [deallocate_block_free, deallocate_block_used]
        rcases inv.cover b hb with h | h
        · exact Or.inl (List.mem_append_left _ h)
        · by_cases hbe : b = bid
          · subst hbe
            exact Or.inl (List.mem_append_right _ (List.mem_singleton_self b))
          · exact Or.inr (Finset.mem_erase.mpr ⟨hbe, h⟩)
      · intro b hb
        rw [deallocate_block_free] at hb
        rw [deallocate_block_used]
        rcases List.mem_append.mp hb with h | h
        · intro hc
          exact inv.disj b h (Finset.mem_of_mem_erase hc)
        · rw [List.mem_singleton] at h
          subst h
          exact Finset.not_mem_erase b _
      · intro b hb
        rw [deallocate_block_free] at hb
        rw [refAt_deallocate_block]
        rcases List.mem_append.mp hb with h | h
        · have hbe : b ≠ bid := fun hc => hnf (hc ▸ h)
          rw [hother b hbe]
          exact inv.free_ref b h
        · rw [List.mem_singleton] at h
          subst h
          exact hz
      · intro b hb
        rw [deallocate_block_used] at hb
        rw [refAt_deallocate_block]
        have hbe : b ≠ bid := (Finset.mem_erase.mp hb).1
        rw [hother b hbe]
        exact inv.used_ref b (Finset.mem_of_mem_erase hb)
      · intro p hp
        rw [deallocate_block_dict] at hp
        rw [deallocate_block_blocks, hlen₁]
        exact inv.dict_lt p hp
      · intro i hi
        rw [deallocate_block_blocks, hlen₁] at hi
        rw [blockAt_deallocate_block]
        exact hids₁ i hi
    · rw [refAt_deallocate_block]
      exact hself
    · intro b hb
      rw [refAt_deallocate_block]
      exact hother b hb
  · rw [hd, if_neg hz]
    refine ⟨?_, rfl, hlen₁, hself, hother⟩
    constructor
    · exact inv.free_nodup
    · intro b hb
      rw [hlen₁]
      exact inv.free_lt b hb
    · intro b hb
      rw [hlen₁]
      exact inv.used_lt b hb
    · intro b hb
      rw [hlen₁] at hb
      exact inv.cover b hb
    · exact inv.disj
    · intro b hb
      have hbe : b ≠ bid := fun hc => hnf (hc ▸ hb)
      rw [hother b hbe]
      exact inv.free_ref b hb
    · intro b hb
      by_cases hbe : b = bid
      · subst hbe
        rw [hself]
        rw [hself] at hz
        omega
      · rw [hother b hbe]
        exact inv.used_ref b hb
    · intro p hp
      rw [hlen₁]
      exact inv.dict_lt p hp
    · intro i hi
      rw [hlen₁] at hi
      exact hids₁ i hi

/-- The deallocate loop over a list of ids whose multiplicities are covered
by the current ref counts: invariant preserved, each ref count drops by the
multiplicity. -/
theorem deallocLoop_char :
    ∀ (ids : List Nat) (bm : BlockManager), BMInv bm →
      (∀ b ∈ ids, b < bm.blocks.length) →
      (∀ b, (ids.count b : Int) ≤ refAt bm b) →
      BMInv (deallocLoop bm ids) ∧
      (deallocLoop bm ids).block_size = bm.block_size ∧
      (deallocLoop bm ids).blocks.length = bm.blocks.length ∧
      (∀ b, refAt (deallocLoop bm ids) b = refAt bm b - (ids.count b : Int)) := by
  intro ids
  induction ids with
  | nil =>
    intro bm inv _ _
    exact ⟨inv, rfl, rfl, fun b => by simp [deallocLoop]⟩
  | cons bid rest ih =>
    intro bm inv hids hcount
    have hlt : bid < bm.blocks.length := hids bid (List.mem_cons_self bid rest)
    have href : 1 ≤ refAt bm bid := by
      have := hcount bid
      rw [List.count_cons_self] at this
      push_cast at this
      omega
    rcases deallocStep_char bm bid inv hlt href with ⟨hinv₁, hbs₁, hlen₁, hself₁, hother₁⟩
    have hids' : ∀ b ∈ rest, b < (deallocStep bm bid).blocks.length := by
      intro b hb
      rw [hlen₁]
      exact hids b (List.mem_cons_of_mem bid hb)
    have hcount' : ∀ b, (rest.count b : Int) ≤ refAt (deallocStep bm bid) b := by
      intro b
      by_cases hbe : b = bid
      · subst hbe
        rw [hself₁]
        have := hcount b
        rw [List.count_cons_self] at this
        push_cast at this
        omega
      · rw [hother₁ b hbe]
        have := hcount b
        rw [List.count_cons_of_ne hbe] at this
        exact this
    rcases ih (deallocStep bm bid) hinv₁ hids' hcount' with ⟨hinv', hbs', hlen', href'⟩
    refine ⟨hinv', hbs'.trans hbs₁, hlen'.trans hlen₁, ?_⟩
    intro b
    show refAt (deallocLoop (deallocStep bm bid) rest) b = _
    rw [href' b]
    by_cases hbe : b = bid
    · subst hbe
      rw [hself₁, List.count_cons_self]
      push_cast
      omega
    · rw [hother₁ b hbe, List.count_cons_of_ne hbe]

/-- `BlockManager.deallocate`: the invariant is preserved, each ref count
drops by its multiplicity in the block table, and the sequence's table and
cached-token count are cleared. -/
theorem deallocate_char (bm : BlockManager) (seq : Sequence) (inv : BMInv bm)
    (hids : ∀ b ∈ seq.block_table, b < bm.blocks.length)
    (hcount : ∀ b, (seq.block_table.count b : Int) ≤ refAt bm b) :
    BMInv (deallocate bm seq).1 ∧
    (deallocate bm seq).1.block_size = bm.block_size ∧
    (deallocate bm seq).1.blocks.length = bm.blocks.length ∧
    (∀ b, refAt (deallocate bm seq).1 b = refAt bm b - (seq.block_table.count b : Int)) ∧
    (deallocate bm seq).2 = { seq with num_cached_tokens := 0, block_table := [] } := by
  have hmain := deallocLoop_char seq.block_table.reverse bm inv
    (by
      intro b hb
      exact hids b (List.mem_reverse.mp hb))
    (by
      intro b
      rw [List.count_reverse]
      exact hcount b)
  refine ⟨hmain.1, hmain.2.1, hmain.2.2.1, ?_, rfl⟩
  intro b
  have := hmain.2.2.2 b
  rw [List.count_reverse] at this
  exact this

/-- `BlockManager.may_append`: the invariant is preserved; either nothing
changes in the pool accounting, or (when a new logical block opens) one
fresh free block is appended to the table with ref count one.  Only the
block table of the sequence changes. -/
theorem may_append_char (bm : BlockManager) (seq : Sequence)
    (bm' : BlockManager) (seq' : Sequence) (inv : BMInv bm)
    (hids : ∀ b ∈ seq.block_table, b < bm.blocks.length)
    (hma : may_append bm seq = some (bm', seq')) :
    BMInv bm' ∧ bm'.block_size = bm.block_size ∧
    bm'.blocks.length = bm.blocks.length ∧
    ∃ delta, (∀ b ∈ delta, b < bm.blocks.length) ∧
      seq' = { seq with block_table := seq.block_table ++ delta } ∧
      (∀ b, refAt bm' b = refAt bm b + (delta.count b : Int)) := by
  rw [may_append] at hma
  split at hma
  · exact absurd hma (by simp)
  · rename_i lastId hlast
    split at hma
    · split at hma
      · exact absurd hma (by simp)
      · split at hma
        · exact absurd hma (by simp)
        · rename_i bid rest hfree
          split at hma
          · exact absurd hma (by simp)
          · rename_i bm₁ halloc
            have hbidfree : bid ∈ bm.free_block_ids := by
              rw [hfree]
              exact List.mem_cons_self bid rest
            have hbm₁ : bm₁ = claimBlock bm bid := by
              have := (alloc_block_some bm bid (inv.free_ref bid hbidfree)).symm.trans halloc
              exact (Option.some.inj this).symm
            subst hbm₁
            simp only [Option.some.injEq, Prod.mk.injEq] at hma
            obtain ⟨hbm, hseq⟩ := hma
            subst hbm
            refine ⟨claimBlock_inv bm bid inv hbidfree, claimBlock_block_size bm bid,
              claimBlock_length bm bid, [bid], ?_, hseq.symm, ?_⟩
            · intro b hb
              rw [List.mem_singleton] at hb
              exact hb ▸ inv.free_lt bid hbidfree
            · intro b
              by_cases hbe : b = bid
              · subst hbe
                rw [refAt_claimBlock_self bm b (inv.free_lt b hbidfree),
                  inv.free_ref b hbidfree]
                simp
              · rw [refAt_claimBlock_ne bm bid b hbe]
                have : List.count b [bid] = 0 := by
                  rw [List.count_cons_of_ne hbe, List.count_nil]
                rw [this]
                simp
    · split at hma
      · split at hma
        · exact absurd hma (by simp)
        · simp only [Option.some.injEq, Prod.mk.injEq] at hma
          obtain ⟨hbm, hseq⟩ := hma
          subst hbm
          have hlastmem : lastId ∈ seq.block_table := List.mem_of_mem_getLast? hlast
          have hlastlt := hids lastId hlastmem
          have hpub : (blockAt bm lastId).block_id = lastId := inv.ids lastId hlastlt
          refine ⟨?_, rfl,
            setBlock_length bm lastId
              (fun b => b.update (compute_hash (lastBlockTokens bm seq) (lastPfx bm seq))
                (lastBlockTokens bm seq)),
            [], by simp, ?_, ?_⟩
          · exact BMInv_dictSet
              (setBlock bm lastId fun b =>
                b.update (compute_hash (lastBlockTokens bm seq) (lastPfx bm seq))
                  (lastBlockTokens bm seq))
              (compute_hash (lastBlockTokens bm seq) (lastPfx bm seq))
              (blockAt bm lastId).block_id
              (BMInv_setBlock bm lastId _ inv (fun b => rfl) (fun b => rfl))
              (by rw [setBlock_length, hpub]; exact hlastlt)
          · rw [← hseq]
            simp
          · intro b
            simp only [List.count_nil, Nat.cast_zero, add_zero]
            exact refAt_setBlock_preserve bm lastId
              (fun b => b.update (compute_hash (lastBlockTokens bm seq) (lastPfx bm seq))
                (lastBlockTokens bm seq)) (fun b => rfl) b
      · split at hma
        · exact absurd hma (by simp)
        · simp only [Option.some.injEq, Prod.mk.injEq] at hma
          obtain ⟨hbm, hseq⟩ := hma
          subst hbm
          refine ⟨inv, rfl, rfl, [], by simp, ?_, fun b => by simp⟩
          rw [← hseq]
          simp

theorem tableCount_cons (q : Sequence) (seqs : List Sequence) (b : Nat) :
    tableCount (q :: seqs) b = q.block_table.count b + tableCount seqs b := by
  simp [tableCount]

theorem tableCount_append_one (seqs : List Sequence) (q : Sequence) (b : Nat) :
    tableCount (seqs ++ [q]) b = tableCount seqs b + q.block_table.count b := by
  simp [tableCount]

theorem tableCount_set (seqs : List Sequence) (i : Nat) (q q' : Sequence) (b : Nat)
    (hq : seqs[i]? = some q) :
    tableCount (seqs.set i q') b + q.block_table.count b
      = tableCount seqs b + q'.block_table.count b := by
  induction seqs generalizing i with
  | nil => simp at hq
  | cons s ss ih =>
    cases i with
    | zero =>
      simp only [List.getElem?_cons_zero, Option.some.injEq] at hq
      subst hq
      simp only [List.set]
      rw [tableCount_cons, tableCount_cons]
      omega
    | succ n =>
      simp only [List.getElem?_cons_succ] at hq
      simp only [List.set]
      rw [tableCount_cons, tableCount_cons]
      have := ih n hq
      omega

theorem count_le_tableCount (seqs : List Sequence) (q : Sequence) (b : Nat)
    (hq : q ∈ seqs) : q.block_table.count b ≤ tableCount seqs b := by
  induction seqs with
  | nil => simp at hq
  | cons s ss ih =>
    rw [tableCount_cons]
    rcases List.mem_cons.mp hq with h | h
    · subst h
      omega
    · have := ih h
      omega

/-- Applying any scheduler-driven block-manager operation preserves the full
system invariant (and the pool geometry). -/
theorem applyOp_inv (s s' : SysState) (op : Op) (hinv : FullInv s)
    (hop : applyOp s op = some s') :
    FullInv s' ∧ s'.bm.blocks.length = s.bm.blocks.length ∧
      s'.bm.block_size = s.bm.block_size := by
  obtain ⟨hbminv, hrefinv, hseqinv⟩ := hinv
  cases op with
  | newSeq ts =>
    rw [applyOp] at hop
    split at hop
    · exact absurd hop (by simp)
    · simp only [Option.some.injEq] at hop
      subst hop
      refine ⟨⟨hbminv, ?_, ?_⟩, rfl, rfl⟩
      · intro b
        rw [tableCount_append_one]
        have : (Sequence.make s.seqs.length ts 64 false).block_table = [] := rfl
        rw [this, List.count_nil, Nat.add_zero]
        exact hrefinv b
      · intro q hq b hb
        rcases List.mem_append.mp hq with h | h
        · exact hseqinv q h b hb
        · rw [List.mem_singleton] at h
          subst h
          simp only [Sequence.make] at hb
          exact absurd hb (List.not_mem_nil b)
  | alloc i =>
    rw [applyOp] at hop
    split at hop
    · exact absurd hop (by simp)
    · rename_i seq hseq
      split at hop
      · split at hop
        · exact absurd hop (by simp)
        · rename_i bm₁ seq₁ halloc
          simp only [Option.some.injEq] at hop
          subst hop
          rcases allocate_char s.bm seq bm₁ seq₁ hbminv halloc with
            ⟨hempty, hinv₁, hbs₁, hlen₁, delta, hdlt, ⟨c, hseq₁⟩, href₁⟩
          have htbl : seq₁.block_table = delta := by rw [hseq₁]
          refine ⟨⟨hinv₁, ?_, ?_⟩, hlen₁, hbs₁⟩
          · intro b
            have hts := tableCount_set s.seqs i seq seq₁ b hseq
            rw [hempty, List.count_nil, Nat.add_zero, htbl] at hts
            show refAt bm₁ b = _
            rw [href₁ b, hrefinv b, hts]
            push_cast
            omega
          · intro q hq b hb
            show b < bm₁.blocks.length
            rw [hlen₁]
            rcases List.mem_or_eq_of_mem_set hq with h | h
            · exact hseqinv q h b hb
            · subst h
              rw [htbl] at hb
              exact hdlt b hb
      · exact absurd hop (by simp)
  | dealloc i =>
    rw [applyOp] at hop
    split at hop
    · exact absurd hop (by simp)
    · rename_i seq hseq
      simp only [Option.some.injEq] at hop
      subst hop
      have hqmem : seq ∈ s.seqs := List.getElem?_mem hseq
      have hids : ∀ b ∈ seq.block_table, b < s.bm.blocks.length :=
        fun b hb => hseqinv seq hqmem b hb
      have hcount : ∀ b, (seq.block_table.count b : Int) ≤ refAt s.bm b := by
        intro b
        rw [hrefinv b]
        exact_mod_cast count_le_tableCount s.seqs seq b hqmem
      rcases deallocate_char s.bm seq hbminv hids hcount with
        ⟨hinv₁, hbs₁, hlen₁, href₁, hseq₁⟩
      have htbl : (deallocate s.bm seq).2.block_table = [] := by rw [hseq₁]
      refine ⟨⟨hinv₁, ?_, ?_⟩, hlen₁, hbs₁⟩
      · intro b
        have hts := tableCount_set s.seqs i seq (deallocate s.bm seq).2 b hseq
        rw [htbl, List.count_nil, Nat.add_zero] at hts
        rw [href₁ b, hrefinv b]
        push_cast
        omega
      · intro q hq b hb
        show b < (deallocate s.bm seq).1.blocks.length
        rw [hlen₁]
        rcases List.mem_or_eq_of_mem_set hq with h | h
        · exact hseqinv q h b hb
        · subst h
          rw [htbl] at hb
          exact absurd hb (List.not_mem_nil b)
  | appendTok i tok =>
    rw [applyOp] at hop
    split at hop
    · exact absurd hop (by simp)
    · rename_i seq hseq
      simp only [Option.some.injEq] at hop
      subst hop
      have htbl : (seq.append_token tok).block_table = seq.block_table := rfl
      refine ⟨⟨hbminv, ?_, ?_⟩, rfl, rfl⟩
      · intro b
        have hts := tableCount_set s.seqs i seq (seq.append_token tok) b hseq
        rw [htbl] at hts
        show refAt s.bm b = (tableCount (s.seqs.set i (seq.append_token tok)) b : Int)
        rw [hrefinv b]
        omega
      · intro q hq b hb
        rcases List.mem_or_eq_of_mem_set hq with h | h
        · exact hseqinv q h b hb
        · subst h
          rw [htbl] at hb
          exact hseqinv seq (List.getElem?_mem hseq) b hb
  | mayAppend i =>
    rw [applyOp] at hop
    split at hop
    · exact absurd hop (by simp)
    · rename_i seq hseq
      split at hop
      · split at hop
        · exact absurd hop (by simp)
        · rename_i bm₁ seq₁ hma
          simp only [Option.some.injEq] at hop
          subst hop
          have hqmem : seq ∈ s.seqs := List.getElem?_mem hseq
          rcases may_append_char s.bm seq bm₁ seq₁ hbminv
              (fun b hb => hseqinv seq hqmem b hb) hma with
            ⟨hinv₁, hbs₁, hlen₁, delta, hdlt, hseq₁, href₁⟩
          have htbl : seq₁.block_table = seq.block_table ++ delta := by rw [hseq₁]
          refine ⟨⟨hinv₁, ?_, ?_⟩, hlen₁, hbs₁⟩
          · intro b
            have hts := tableCount_set s.seqs i seq seq₁ b hseq
            rw [htbl, List.count_append] at hts
            show refAt bm₁ b = _
            rw [href₁ b, hrefinv b]
            push_cast
            omega
          · intro q hq b hb
            show b < bm₁.blocks.length
            rw [hlen₁]
            rcases List.mem_or_eq_of_mem_set hq with h | h
            · exact hseqinv q h b hb
            · subst h
              rw [htbl] at hb
              rcases List.mem_append.mp hb with h | h
              · exact hseqinv seq hqmem b h
              · exact hdlt b h
      · exact absurd hop (by simp)

/-- Running any list of operations preserves the full system invariant. -/
theorem runOps_inv :
    ∀ (ops : List Op) (s s' : SysState), FullInv s → runOps s ops = some s' → FullInv s' := by
  intro ops
  induction ops with
  | nil =>
    intro s s' hinv hrun
    simp only [runOps, Option.some.injEq] at hrun
    exact hrun ▸ hinv
  | cons op rest ih =>
    intro s s' hinv hrun
    rw [runOps] at hrun
    split at hrun
    · exact absurd hrun (by simp)
    · rename_i s₁ hop
      exact ih s₁ s' (applyOp_inv s s₁ op hinv hop).1 hrun

theorem blockAt_init (num_blocks block_size b : Nat) (bm : BlockManager)
    (hinit : BlockManager.init num_blocks block_size = some bm)
    (hb : b < num_blocks) :
    blockAt bm b = { block_id := b, ref_count := 0, hash := -1, token_ids := [] } := by
  rw [BlockManager.init] at hinit
  split at hinit
  · simp only [Option.some.injEq] at hinit
    subst hinit
    simp [blockAt, List.getD_eq_getElem?_getD, List.getElem?_map, List.getElem?_range hb]
  · exact absurd hinit (by simp)

theorem init_length (num_blocks block_size : Nat) (bm : BlockManager)
    (hinit : BlockManager.init num_blocks block_size = some bm) :
    bm.blocks.length = num_blocks := by
  rw [BlockManager.init] at hinit
  split at hinit
  · simp only [Option.some.injEq] at hinit
    subst hinit
    simp
  · exact absurd hinit (by simp)

/-- The fresh pool satisfies the full invariant. -/
theorem initState_inv (num_blocks block_size : Nat) (s₀ : SysState)
    (hinit : initState num_blocks block_size = some s₀) : FullInv s₀ := by
  rw [initState] at hinit
  split at hinit
  · exact absurd hinit (by simp)
  · rename_i bm hbm
    simp only [Option.some.injEq] at hinit
    subst hinit
    have hlen := init_length num_blocks block_size bm hbm
    have hfree : bm.free_block_ids = List.range num_blocks := by
      rw [BlockManager.init] at hbm
      split at hbm
      · simp only [Option.some.injEq] at hbm
        subst hbm
        rfl
      · exact absurd hbm (by simp)
    have hused : bm.used_block_ids = ∅ := by
      rw [BlockManager.init] at hbm
      split at hbm
      · simp only [Option.some.injEq] at hbm
        subst hbm
        rfl
      · exact absurd hbm (by simp)
    have hdict : bm.hash_to_block_id = [] := by
      rw [BlockManager.init] at hbm
      split at hbm
      · simp only [Option.some.injEq] at hbm
        subst hbm
        rfl
      · exact absurd hbm (by simp)
    have hrefz : ∀ b, refAt bm b = 0 := by
      intro b
      by_cases hb : b < num_blocks
      · show (blockAt bm b).ref_count = 0
        rw [blockAt_init num_blocks block_size b bm hbm hb]
      · show (blockAt bm b).ref_count = 0
        rw [blockAt_oob bm b (by rw [hlen]; exact hb)]
        rfl
    constructor
    · constructor
      · rw [hfree]
        exact List.nodup_range num_blocks
      · intro b hb
        rw [hlen]
        rw [hfree] at hb
        exact List.mem_range.mp hb
      · intro b hb
        rw [hused] at hb
        exact absurd hb (Finset.not_mem_empty b)
      · intro b hb
        rw [hlen] at hb
        rw [hfree]
        exact Or.inl (List.mem_range.mpr hb)
      · intro b _ hb
        rw [hused] at hb
        exact Finset.not_mem_empty b hb
      · intro b _
        exact hrefz b
      · intro b hb
        rw [hused] at hb
        exact absurd hb (Finset.not_mem_empty b)
      · intro p hp
        rw [hdict] at hp
        exact absurd hp (List.not_mem_nil p)
      · intro i hi
        rw [hlen] at hi
        rw [blockAt_init num_blocks block_size i bm hbm hi]
    · constructor
      · intro b
        rw [hrefz b]
        rfl
      · intro q hq
        exact absurd hq (List.not_mem_nil q)

/-- Every reachable system state satisfies the full invariant: the pool is
well-formed and every ref count equals the total table multiplicity. -/
theorem reachable_inv (num_blocks block_size : Nat) (s : SysState)
    (hreach : Reachable num_blocks block_size s) : FullInv s := by
  rcases hreach with ⟨s₀, ops, hinit, hrun⟩
  exact runOps_inv ops s₀ s (initState_inv num_blocks block_size s₀ hinit) hrun

/-- Running operations also preserves the pool geometry. -/
theorem runOps_geometry :
    ∀ (ops : List Op) (s s' : SysState), FullInv s → runOps s ops = some s' →
      s'.bm.blocks.length = s.bm.blocks.length ∧ s'.bm.block_size = s.bm.block_size := by
  intro ops
  induction ops with
  | nil =>
    intro s s' _ hrun
    simp only [runOps, Option.some.injEq] at hrun
    subst hrun
    exact ⟨rfl, rfl⟩
  | cons op rest ih =>
    intro s s' hinv hrun
    rw [runOps] at hrun
    split at hrun
    · exact absurd hrun (by simp)
    · rename_i s₁ hop
      rcases applyOp_inv s s₁ op hinv hop with ⟨hinv₁, hlen₁, hbs₁⟩
      rcases ih s₁ s' hinv₁ hrun with ⟨hlen₂, hbs₂⟩
      exact ⟨hlen₂.trans hlen₁, hbs₂.trans hbs₁⟩

/-- The free-list length and used-set cardinality sum to the pool size. -/
theorem BMInv_sizes (bm : BlockManager) (inv : BMInv bm) :
    bm.free_block_ids.length + bm.used_block_ids.card = bm.blocks.length := by
  have hlen : bm.free_block_ids.toFinset.card = bm.free_block_ids.length :=
    List.toFinset_card_of_nodup inv.free_nodup
  have hunion : bm.free_block_ids.toFinset ∪ bm.used_block_ids
      = Finset.range bm.blocks.length := by
    ext b
    simp only [Finset.mem_union, List.mem_toFinset, Finset.mem_range]
    constructor
    · rintro (h | h)
      · exact inv.free_lt b h
      · exact inv.used_lt b h
    · exact inv.cover b
  have hdisj : Disjoint bm.free_block_ids.toFinset bm.used_block_ids := by
    rw [Finset.disjoint_left]
    intro b hb
    exact inv.disj b (List.mem_toFinset.mp hb)
  have hcard := Finset.card_union_of_disjoint hdisj
  rw [hunion, Finset.card_range] at hcard
  omega

/-- C3: in every reachable state — i.e. after every scheduler-driven
`allocate`, `deallocate` or `may_append` — the free deque and the used set
are disjoint, and the free-deque length plus the used-set cardinality equals
the pool size `num_blocks`. -/
theorem C3_pool_conservation (num_blocks block_size : Nat) (s : SysState)
    (hreach : Reachable num_blocks block_size s) :
    (∀ b ∈ s.bm.free_block_ids, b ∉ s.bm.used_block_ids) ∧
    s.bm.free_block_ids.length + s.bm.used_block_ids.card = num_blocks := by
  have hinv := reachable_inv num_blocks block_size s hreach
  rcases hreach with ⟨s₀, ops, hinit, hrun⟩
  have hlen : s.bm.blocks.length = num_blocks := by
    have h₀ := (runOps_geometry ops s₀ s (initState_inv num_blocks block_size s₀ hinit) hrun).1
    rw [h₀]
    rw [initState] at hinit
    split at hinit
    · exact absurd hinit (by simp)
    · rename_i bm hbm
      simp only [Option.some.injEq] at hinit
      subst hinit
      exact init_length num_blocks block_size bm hbm
  refine ⟨hinv.1.disj, ?_⟩
  rw [← hlen]
  exact BMInv_sizes s.bm hinv.1

/-- Witness for C3 at a concrete reachable state. -/
theorem C3_pool_conservation_witness :
    Reachable 8 4 prefixShareState ∧
    ((∀ b ∈ prefixShareState.bm.free_block_ids, b ∉ prefixShareState.bm.used_block_ids) ∧
      prefixShareState.bm.free_block_ids.length + prefixShareState.bm.used_block_ids.card = 8) :=
  have hreach : Reachable 8 4 prefixShareState :=
    ⟨(initState 8 4).getD emptySys, prefixShareOps, by decide, by decide⟩
  ⟨hreach, C3_pool_conservation 8 4 prefixShareState hreach⟩

/-- C4 (amended): in every reachable state — under any interleaving of the
scheduler-driven operations over any collection of sequences — every block's
`ref_count` equals the total number of occurrences of its id across all
block tables (counting multiplicity within one table). -/
theorem C4_refcount_multiplicity (num_blocks block_size : Nat) (s : SysState)
    (hreach : Reachable num_blocks block_size s) :
    ∀ b, refAt s.bm b = (tableCount s.seqs b : Int) :=
  (reachable_inv num_blocks block_size s hreach).2.1

/-- Witness for C4 at a concrete reachable state. -/
theorem C4_refcount_multiplicity_witness :
    Reachable 4 2 dupState ∧ ∀ b, refAt dupState.bm b = (tableCount dupState.seqs b : Int) :=
  have hreach : Reachable 4 2 dupState :=
    ⟨(initState 4 2).getD emptySys, dupOps, by decide, by decide⟩
  ⟨hreach, C4_refcount_multiplicity 4 2 dupState hreach⟩

/-- C4 as stated is false: in the reachable state `dupState`, block 1 has
`ref_count = 3` but only two sequences (numbers 7 and 8) contain id 1 in
their block tables — sequence 8's table is `[1, 1]`. -/
theorem C4_membership_counterexample :
    Reachable 4 2 dupState ∧
    refAt dupState.bm 1 = 3 ∧
    (dupState.seqs.filter fun q => 1 ∈ q.block_table).length = 2 ∧
    (dupState.seqs.getD 8 (Sequence.make 0 [0] 64 false)).block_table = [1, 1] ∧
    refAt dupState.bm 1 ≠ ((dupState.seqs.filter fun q => 1 ∈ q.block_table).length : Int) :=
  ⟨⟨(initState 4 2).getD emptySys, dupOps, by decide, by decide⟩,
    by decide, by decide, by decide, by decide⟩

/-- C2 (amended): spec scenario 1 on a fresh pool with block size 4 and 8
blocks.  After admitting A = `[1..8,9]` and then B = `[1..8,10]`, the first
two block-table entries coincide, those blocks have `ref_count = 2`, and B
reports 8 cached tokens while A — allocated first, when the dedup index was
empty — reports 0. -/
theorem C2_prefix_sharing :
    Reachable 8 4 prefixShareState ∧
    (prefixShareState.seqs.map Sequence.block_table) = [[0, 1, 2], [0, 1, 3]] ∧
    refAt prefixShareState.bm 0 = 2 ∧
    refAt prefixShareState.bm 1 = 2 ∧
    (prefixShareState.seqs.map Sequence.num_cached_tokens) = [0, 8] :=
  ⟨⟨(initState 8 4).getD emptySys, prefixShareOps, by decide, by decide⟩,
    by decide, by decide, by decide, by decide⟩

/-- C2 as stated is false: in the prefix-sharing scenario sequence A does
not report `num_cached_tokens = 8`; it reports 0, because A was allocated
first and every one of its blocks was a cache miss. -/
theorem C2_counterexample :
    Reachable 8 4 prefixShareState ∧
    (prefixShareState.seqs.getD 0 (Sequence.make 0 [0] 64 false)).num_cached_tokens = 0 ∧
    (prefixShareState.seqs.getD 0 (Sequence.make 0 [0] 64 false)).num_cached_tokens ≠ 8 :=
  ⟨⟨(initState 8 4).getD emptySys, prefixShareOps, by decide, by decide⟩, by decide, by decide⟩

/-- C5: evaluation of the code at the failing input.  In the reachable state
`staleHashState`, sequence 2 owns blocks `[3, 1]` and block 1 is full
(`token_ids = [7,7]`, length = block size), yet its hash is not the chained
hash of its tokens over its predecessor's hash (`blocks[3].hash`): the hit of
sequence 3 through a stale dedup entry rewrote it to the `[9,9]`-chain hash,
while both sequences share the block (`ref_count = 2`). -/
theorem C5_hash_chain_violation :
    Reachable 4 2 staleHashState ∧
    (staleHashState.seqs.getD 2 (Sequence.make 0 [0] 64 false)).block_table = [3, 1] ∧
    (blockAt staleHashState.bm 1).token_ids = [7, 7] ∧
    (blockAt staleHashState.bm 1).token_ids.length = staleHashState.bm.block_size ∧
    (blockAt staleHashState.bm 1).hash ≠ -1 ∧
    (blockAt staleHashState.bm 1).hash ≠
      compute_hash (blockAt staleHashState.bm 1).token_ids (blockAt staleHashState.bm 3).hash ∧
    (blockAt staleHashState.bm 1).hash = compute_hash [7, 7] (compute_hash [9, 9] (-1)) ∧
    refAt staleHashState.bm 1 = 2 ∧
    (staleHashState.seqs.getD 3 (Sequence.make 0 [0] 64 false)).block_table = [0, 1] :=
  ⟨⟨(initState 4 2).getD emptySys, staleHashOps, by decide, by decide⟩,
    by decide, by decide, by decide, by decide, by decide, by decide, by decide, by decide⟩

/-- C9 as stated is false: after `postprocess` appends a decoded token that
opens a new logical block, and before the next schedule tick, the block table
is one entry short of `num_blocks`.  Concretely with block size 2: prompt
`[1,2]` was allocated one block, appending token 3 makes `num_tokens = 3`, so
`num_blocks = 2` while the block table still has length 1. -/
theorem C9_counterexample :
    Reachable 2 2 openBlockState ∧
    (openBlockState.seqs.getD 0 (Sequence.make 0 [0] 64 false)).block_table.length = 1 ∧
    (openBlockState.seqs.getD 0 (Sequence.make 0 [0] 64 false)).num_blocks
      openBlockState.bm.block_size = 2 ∧
    (openBlockState.seqs.getD 0 (Sequence.make 0 [0] 64 false)).block_table.length ≠
      (openBlockState.seqs.getD 0 (Sequence.make 0 [0] 64 false)).num_blocks
        openBlockState.bm.block_size :=
  ⟨⟨(initState 2 2).getD emptySys, openBlockOps, by decide, by decide⟩,
    by decide, by decide, by decide⟩

/-- C7: evaluation of the code at the failing input.  With a pool of 2
blocks of size 2, a prompt of 4 tokens is admitted by the prefill tick and
`postprocess` appends the sampled token.  At the next tick no prefill is
possible, the running queue is non-empty, the single running sequence cannot
append (it needs a new block and the free pool is empty), there is no other
sequence to preempt, so it preempts itself and the decode phase ends with an
empty batch — and `schedule()` does not return normally: the final
`assert scheduled_seqs` fails (`none`), surfacing the resource exhaustion to
the caller. -/
theorem C7_decode_assert_crash :
    (schedule crashSched1).isSome = true ∧
    crashSched3.waiting = [] ∧
    crashSched3.running.length = 1 ∧
    crashSched3.block_manager.free_block_ids = [] ∧
    can_append crashSched3.block_manager
      (crashSched3.running.getD 0 (Sequence.make 0 [0] 64 false)) = false ∧
    schedule crashSched3 = none :=
  ⟨by decide, by decide, by decide, by decide, by decide, by decide⟩

theorem ceil_div_succ (L bs : Nat) (hbs : 0 < bs) :
    (L + 1 + bs - 1) / bs = L / bs + 1 := by
  have h1 : L + 1 + bs - 1 = L + bs := by omega
  rw [h1]
  exact Nat.add_div_right L hbs

theorem ceil_div_of_mod_eq_zero (L bs : Nat) (hbs : 0 < bs) (hr : L % bs = 0) :
    (L + bs - 1) / bs = L / bs := by
  have hdm := Nat.div_add_mod L bs
  have h1 : L + bs - 1 = bs * (L / bs) + (bs - 1) := by omega
  rw [h1, Nat.mul_add_div hbs]
  have h2 : (bs - 1) / bs = 0 := Nat.div_eq_of_lt (by omega)
  omega

theorem ceil_div_of_mod_ne_zero (L bs : Nat) (hbs : 0 < bs) (hr : L % bs ≠ 0) :
    (L + bs - 1) / bs = L / bs + 1 := by
  have hdm := Nat.div_add_mod L bs
  have hlt := Nat.mod_lt L hbs
  have hmul : bs * (L / bs + 1) = bs * (L / bs) + bs := by ring
  have h1 : L + bs - 1 = bs * (L / bs + 1) + (L % bs - 1) := by omega
  rw [h1, Nat.mul_add_div hbs]
  have h2 : (L % bs - 1) / bs = 0 := Nat.div_eq_of_lt (by omega)
  omega

theorem succ_mod_eq_one_iff (L bs : Nat) (hbs : 1 < bs) :
    (L + 1) % bs = 1 ↔ L % bs = 0 := by
  have h1 : (L + 1) % bs = (L % bs + 1) % bs := by
    rw [Nat.add_mod, Nat.mod_eq_of_lt hbs]
  have hlt := Nat.mod_lt L (show 0 < bs by omega)
  constructor
  · intro h
    rw [h1] at h
    by_cases hc : L % bs + 1 < bs
    · rw [Nat.mod_eq_of_lt hc] at h
      omega
    · have he : L % bs + 1 = bs := by omega
      rw [he, Nat.mod_self] at h
      omega
  · intro h
    rw [h1, h]
    exact Nat.mod_eq_of_lt hbs

/-- `may_append` never changes the token count; it appends one block id to
the table exactly when the length is `1 mod block_size`, and otherwise
leaves the table unchanged. -/
theorem may_append_table (bm : BlockManager) (seq : Sequence) (bm' : BlockManager)
    (seq' : Sequence) (hma : may_append bm seq = some (bm', seq')) :
    seq'.num_tokens = seq.num_tokens ∧
    ((seq.num_tokens % bm.block_size = 1 ∧
        ∃ bid, seq'.block_table = seq.block_table ++ [bid]) ∨
      (seq.num_tokens % bm.block_size ≠ 1 ∧ seq'.block_table = seq.block_table)) := by
  rw [may_append] at hma
  split at hma
  · exact absurd hma (by simp)
  · rename_i lastId hlast
    split at hma
    · rename_i hmod1
      split at hma
      · exact absurd hma (by simp)
      · split at hma
        · exact absurd hma (by simp)
        · rename_i bid rest hfree
          split at hma
          · exact absurd hma (by simp)
          · rename_i bm₁ halloc
            simp only [Option.some.injEq, Prod.mk.injEq] at hma
            obtain ⟨_, hseq⟩ := hma
            exact ⟨by rw [← hseq], Or.inl ⟨hmod1, bid, by rw [← hseq]⟩⟩
    · rename_i hmodne
      split at hma
      · split at hma
        · exact absurd hma (by simp)
        · simp only [Option.some.injEq, Prod.mk.injEq] at hma
          obtain ⟨_, hseq⟩ := hma
          exact ⟨by rw [← hseq], Or.inr ⟨hmodne, by rw [← hseq]⟩⟩
      · split at hma
        · exact absurd hma (by simp)
        · simp only [Option.some.injEq, Prod.mk.injEq] at hma
          obtain ⟨_, hseq⟩ := hma
          exact ⟨by rw [← hseq], Or.inr ⟨hmodne, by rw [← hseq]⟩⟩

/-- C9 (amended): if `len(block_table) = num_blocks` holds for a sequence
(as established by allocation), then after `postprocess` appends one decoded
token the equality still holds unless the new token opened a new logical
block (`num_tokens % block_size = 1`), in which case the table is exactly one
entry short; and after the next tick's `may_append` the equality holds again
in every case. -/
theorem C9_amended_table_tracks_blocks (bm : BlockManager) (seq : Sequence) (tok : Nat)
    (hbs : 1 < bm.block_size)
    (hinv : seq.block_table.length = seq.num_blocks bm.block_size) :
    ((seq.append_token tok).num_tokens % bm.block_size = 1 →
      (seq.append_token tok).block_table.length + 1
        = (seq.append_token tok).num_blocks bm.block_size) ∧
    ((seq.append_token tok).num_tokens % bm.block_size ≠ 1 →
      (seq.append_token tok).block_table.length
        = (seq.append_token tok).num_blocks bm.block_size) ∧
    (∀ (bm' : BlockManager) (seq₂ : Sequence),
      may_append bm (seq.append_token tok) = some (bm', seq₂) →
      seq₂.block_table.length = seq₂.num_blocks bm.block_size) := by
  have hbs0 : 0 < bm.block_size := by omega
  have htbl : (seq.append_token tok).block_table = seq.block_table := rfl
  have hnt : (seq.append_token tok).num_tokens = seq.num_tokens + 1 := rfl
  have hceil : (seq.append_token tok).num_blocks bm.block_size
      = seq.num_tokens / bm.block_size + 1 := by
    show (seq.num_tokens + 1 + bm.block_size - 1) / bm.block_size = _
    exact ceil_div_succ seq.num_tokens bm.block_size hbs0
  have part1 : (seq.append_token tok).num_tokens % bm.block_size = 1 →
      (seq.append_token tok).block_table.length + 1
        = (seq.append_token tok).num_blocks bm.block_size := by
    intro h1
    rw [hnt] at h1
    have hz : seq.num_tokens % bm.block_size = 0 :=
      (succ_mod_eq_one_iff seq.num_tokens bm.block_size hbs).mp h1
    rw [htbl, hceil, hinv, Sequence.num_blocks,
      ceil_div_of_mod_eq_zero seq.num_tokens bm.block_size hbs0 hz]
  have part2 : (seq.append_token tok).num_tokens % bm.block_size ≠ 1 →
      (seq.append_token tok).block_table.length
        = (seq.append_token tok).num_blocks bm.block_size := by
    intro h1
    rw [hnt] at h1
    have hz : seq.num_tokens % bm.block_size ≠ 0 := fun hc =>
      h1 ((succ_mod_eq_one_iff seq.num_tokens bm.block_size hbs).mpr hc)
    rw [htbl, hceil, hinv, Sequence.num_blocks,
      ceil_div_of_mod_ne_zero seq.num_tokens bm.block_size hbs0 hz]
  refine ⟨part1, part2, ?_⟩
  intro bm' seq₂ hma
  rcases may_append_table bm (seq.append_token tok) bm' seq₂ hma with ⟨hnum, hcase⟩
  have hnb : seq₂.num_blocks bm.block_size
      = (seq.append_token tok).num_blocks bm.block_size := by
    rw [Sequence.num_blocks, Sequence.num_blocks, hnum]
  rcases hcase with ⟨hmod, bid, htb⟩ | ⟨hmod, htb⟩
  · rw [htb, hnb, List.length_append]
    have := part1 hmod
    simp only [List.length_singleton]
    omega
  · rw [htb, hnb]
    exact part2 hmod

/-- Witness for C9 (amended) at a concrete input: the sequence `[1,2]` with
its one allocated block, block size 2, decoded token 3. -/
theorem C9_amended_table_tracks_blocks_witness :
    (1 < preOpenState.bm.block_size ∧
      preOpenSeq.block_table.length = preOpenSeq.num_blocks preOpenState.bm.block_size) ∧
    (((preOpenSeq.append_token 3).num_tokens % preOpenState.bm.block_size = 1 →
        (preOpenSeq.append_token 3).block_table.length + 1
          = (preOpenSeq.append_token 3).num_blocks preOpenState.bm.block_size) ∧
      ((preOpenSeq.append_token 3).num_tokens % preOpenState.bm.block_size ≠ 1 →
        (preOpenSeq.append_token 3).block_table.length
          = (preOpenSeq.append_token 3).num_blocks preOpenState.bm.block_size) ∧
      (∀ (bm' : BlockManager) (seq₂ : Sequence),
        may_append preOpenState.bm (preOpenSeq.append_token 3) = some (bm', seq₂) →
        seq₂.block_table.length = seq₂.num_blocks preOpenState.bm.block_size)) :=
  ⟨⟨by decide, by decide⟩,
    C9_amended_table_tracks_blocks preOpenState.bm preOpenSeq 3 (by decide) (by decide)⟩

/-- C10: a sequence with `max_tokens ≤ 0` is never finished by
`Scheduler.postprocess` through the length condition: after the appended
token `num_completion_tokens ≥ 1 > 0 ≥ max_tokens`, so the exact-equality
check fails, and the sequence finishes (and is removed from `running`) if
and only if it sampled the EOS token with `ignore_eos` false. -/
theorem C10_no_finish_by_length (st : Scheduler) (seq : Sequence) (tok : Nat)
    (hrun : st.running = [seq])
    (hmax : seq.max_tokens ≤ 0)
    (hpt : seq.num_prompt_tokens ≤ seq.num_tokens) :
    (((seq.append_token tok).num_completion_tokens : Int) ≠ seq.max_tokens) ∧
    ((st.postprocess [(seq.seq_id, tok)]).running = []
      ↔ (seq.ignore_eos = false ∧ tok = st.eos)) ∧
    ((seq.ignore_eos = true ∨ tok ≠ st.eos) →
      (st.postprocess [(seq.seq_id, tok)]).running = [seq.append_token tok]) := by
  have hcomp : (seq.append_token tok).num_completion_tokens
      = seq.num_tokens + 1 - seq.num_prompt_tokens := rfl
  have hone : 1 ≤ (seq.append_token tok).num_completion_tokens := by
    rw [hcomp]
    omega
  have hne : (((seq.append_token tok).num_completion_tokens : Int) ≠ seq.max_tokens) := by
    omega
  have hproj : (st.postprocess [(seq.seq_id, tok)]).running
      = (postprocessPair st.eos st.block_manager st.running seq.seq_id tok).2 := rfl
  have hfind : List.find? (fun q => q.seq_id == seq.seq_id) [seq] = some seq := by
    simp
  have hmaxeq : (seq.append_token tok).max_tokens = seq.max_tokens := rfl
  have hbeq : (((seq.append_token tok).num_completion_tokens : Int)
      == (seq.append_token tok).max_tokens) = false := by
    rw [hmaxeq]
    exact beq_eq_false_iff_ne.mpr hne
  have hpair : (postprocessPair st.eos st.block_manager st.running seq.seq_id tok).2
      = if (!(seq.append_token tok).ignore_eos && tok == st.eos) then
          ([seq].filter fun r => r.seq_id != seq.seq_id)
        else ([seq].map fun r =>
          if r.seq_id == seq.seq_id then seq.append_token tok else r) := by
    rw [postprocessPair, hrun, hfind]
    simp only [hbeq, Bool.or_false]
    split <;> rfl
  have hig : (seq.append_token tok).ignore_eos = seq.ignore_eos := rfl
  refine ⟨hne, ?_, ?_⟩
  · rw [hproj, hpair, hig]
    by_cases hc : (!seq.ignore_eos && tok == st.eos) = true
    · rw [if_pos hc]
      simp only [Bool.and_eq_true, Bool.not_eq_true', beq_iff_eq] at hc
      simp [hc]
    · rw [if_neg hc]
      simp only [Bool.and_eq_true, Bool.not_eq_true', beq_iff_eq] at hc
      simp [hc]
  · intro hcase
    rw [hproj, hpair, hig]
    have hc : (!seq.ignore_eos && tok == st.eos) = false := by
      rcases hcase with h | h
      · simp [h]
      · simp [h]
    rw [if_neg (by simp [hc])]
    simp

/-- Witness for C10 at a concrete input: one running sequence with
`max_tokens = 0`, sampling a non-EOS token. -/
theorem C10_no_finish_by_length_witness :
    ((⟨512, 16384, 99, (BlockManager.init 2 2).getD ⟨0, [], [], [], ∅⟩, [],
        [Sequence.make 0 [1, 2] 0 false]⟩ : Scheduler).running
        = [Sequence.make 0 [1, 2] 0 false] ∧
      (Sequence.make 0 [1, 2] 0 false).max_tokens ≤ 0 ∧
      (Sequence.make 0 [1, 2] 0 false).num_prompt_tokens
        ≤ (Sequence.make 0 [1, 2] 0 false).num_tokens) ∧
    ((((Sequence.make 0 [1, 2] 0 false).append_token 7).num_completion_tokens : Int)
        ≠ (Sequence.make 0 [1, 2] 0 false).max_tokens) :=
  ⟨⟨by decide, by decide, by decide⟩,
    (C10_no_finish_by_length
      ⟨512, 16384, 99, (BlockManager.init 2 2).getD ⟨0, [], [], [], ∅⟩, [],
        [Sequence.make 0 [1, 2] 0 false]⟩
      (Sequence.make 0 [1, 2] 0 false) 7 (by decide) (by decide) (by decide)).1⟩

theorem refAt_nonneg (bm : BlockManager) (inv : BMInv bm) : ∀ b, 0 ≤ refAt bm b := by
  intro b
  by_cases hb : b < bm.blocks.length
  · rcases inv.cover b hb with h | h
    · rw [inv.free_ref b h]
    · have := inv.used_ref b h
      omega
  · show 0 ≤ (blockAt bm b).ref_count
    rw [blockAt_oob bm b hb]
    exact le_refl 0

/-- Under the invariant, the free pool is exactly the set of blocks with
zero ref count. -/
theorem free_toFinset_char (bm : BlockManager) (inv : BMInv bm) :
    bm.free_block_ids.toFinset
      = (Finset.range bm.blocks.length).filter (fun b => refAt bm b = 0) := by
  ext b
  simp only [List.mem_toFinset, Finset.mem_filter, Finset.mem_range]
  constructor
  · intro h
    exact ⟨inv.free_lt b h, inv.free_ref b h⟩
  · rintro ⟨hlt, hz⟩
    rcases inv.cover b hlt with h | h
    · exact h
    · have := inv.used_ref b h
      omega

/-- Two invariant-satisfying pools of the same geometry with identical ref
counts have free lists of the same length and used sets of the same size. -/
theorem sizes_eq_of_refs (bm bm' : BlockManager) (inv : BMInv bm) (inv' : BMInv bm')
    (hlen : bm'.blocks.length = bm.blocks.length)
    (href : ∀ b, refAt bm' b = refAt bm b) :
    bm'.free_block_ids.length = bm.free_block_ids.length ∧
    bm'.used_block_ids.card = bm.used_block_ids.card := by
  have h1 : bm'.free_block_ids.toFinset = bm.free_block_ids.toFinset := by
    rw [free_toFinset_char bm inv, free_toFinset_char bm' inv', hlen]
    exact Finset.filter_congr fun x _ => by rw [href x]
  have hfl : bm'.free_block_ids.length = bm.free_block_ids.length := by
    rw [← List.toFinset_card_of_nodup inv'.free_nodup,
      ← List.toFinset_card_of_nodup inv.free_nodup, h1]
  have hs := BMInv_sizes bm inv
  have hs' := BMInv_sizes bm' inv'
  exact ⟨hfl, by omega⟩

/-- C6: for an invariant-satisfying pool and a sequence with an empty block
table, `allocate` followed by `deallocate` restores the free-pool size and
the used-set size, and leaves the sequence with an empty block table and
zero cached tokens; and `deallocate` on a sequence whose block table is
already empty leaves the pool (free list, used set, and every ref count)
entirely unchanged. -/
theorem C6_alloc_dealloc_roundtrip (bm : BlockManager) (seq : Sequence)
    (inv : BMInv bm) (bm₁ : BlockManager) (seq₁ : Sequence)
    (halloc : allocate bm seq = some (bm₁, seq₁)) :
    (deallocate bm₁ seq₁).1.free_block_ids.length = bm.free_block_ids.length ∧
    (deallocate bm₁ seq₁).1.used_block_ids.card = bm.used_block_ids.card ∧
    (deallocate bm₁ seq₁).2.block_table = [] ∧
    (deallocate bm₁ seq₁).2.num_cached_tokens = 0 ∧
    (∀ q : Sequence, q.block_table = [] →
      (deallocate bm q).1 = bm ∧ (deallocate bm q).2.block_table = []) := by
  rcases allocate_char bm seq bm₁ seq₁ inv halloc with
    ⟨hempty, hinv₁, hbs₁, hlen₁, delta, hdlt, ⟨c, hseq₁⟩, href₁⟩
  have htbl : seq₁.block_table = delta := by rw [hseq₁]
  have hnn := refAt_nonneg bm inv
  have hcnt : ∀ b, (seq₁.block_table.count b : Int) ≤ refAt bm₁ b := by
    intro b
    rw [htbl, href₁ b]
    have := hnn b
    omega
  have hids₁ : ∀ b ∈ seq₁.block_table, b < bm₁.blocks.length := by
    intro b hb
    rw [hlen₁]
    rw [htbl] at hb
    exact hdlt b hb
  rcases deallocate_char bm₁ seq₁ hinv₁ hids₁ hcnt with ⟨hinv₂, hbs₂, hlen₂, href₂, hseq₂⟩
  have hrefs : ∀ b, refAt (deallocate bm₁ seq₁).1 b = refAt bm b := by
    intro b
    rw [href₂ b, href₁ b, htbl]
    omega
  have hsz := sizes_eq_of_refs bm (deallocate bm₁ seq₁).1 inv hinv₂ (hlen₂.trans hlen₁) hrefs
  refine ⟨hsz.1, hsz.2, by rw [hseq₂], by rw [hseq₂], ?_⟩
  intro q hq
  constructor
  · show deallocLoop bm q.block_table.reverse = bm
    rw [hq]
    rfl
  · rfl

/-- Witness for C6: the two-token prompt on the fresh two-block pool. -/
theorem C6_alloc_dealloc_roundtrip_witness :
    (BMInv c6BM ∧ allocate c6BM c6Seq = some (c6Res.1, c6Res.2)) ∧
    ((deallocate c6Res.1 c6Res.2).1.free_block_ids.length = c6BM.free_block_ids.length ∧
      (deallocate c6Res.1 c6Res.2).1.used_block_ids.card = c6BM.used_block_ids.card ∧
      (deallocate c6Res.1 c6Res.2).2.block_table = [] ∧
      (deallocate c6Res.1 c6Res.2).2.num_cached_tokens = 0 ∧
      (∀ q : Sequence, q.block_table = [] →
        (deallocate c6BM q).1 = c6BM ∧ (deallocate c6BM q).2.block_table = [])) :=
  ⟨⟨by decide, by decide⟩,
    C6_alloc_dealloc_roundtrip c6BM c6Seq (by decide) c6Res.1 c6Res.2 (by decide)⟩

/-- The pool invariant is preserved along any prefix of the allocate loop. -/
theorem allocRun_inv :
    ∀ (idxs : List Nat) (bm : BlockManager) (seq : Sequence) (h : Int) (m : Bool)
      (r : BlockManager × Sequence × Int × Bool), BMInv bm →
      allocRun bm seq h m idxs = some r → BMInv r.1 := by
  intro idxs
  induction idxs with
  | nil =>
    intro bm seq h m r inv hrun
    simp only [allocRun, Option.some.injEq] at hrun
    rw [← hrun]
    exact inv
  | cons i rest ih =>
    intro bm seq h m r inv hrun
    rw [allocRun] at hrun
    split at hrun
    · exact absurd hrun (by simp)
    · rename_i bm₁ seq₁ h₁ m₁ hstep
      exact ih bm₁ seq₁ h₁ m₁ r (allocStep_char bm seq h m i bm₁ seq₁ h₁ m₁ inv hstep).1 hrun

/-- C1 (amended): during `BlockManager.allocate`, at a logical block `k`
whose chained hash is set and whose dedup lookup yields a block with matching
`token_ids`, the hit treatment (add `block_size` to `num_cached_tokens`, bump
the used block's ref count or re-claim it from the free pool) is applied only
if no earlier logical block of the sequence missed; if any earlier block
missed, the sticky `cache_miss` flag forces block `k` to be treated as a
miss: `num_cached_tokens` is not increased and the head of the free deque is
consumed instead of the matching block. -/
theorem C1_amended_sticky_hit (bm : BlockManager) (seq : Sequence) (k : Nat)
    (inv : BMInv bm) (bmₖ : BlockManager) (seqₖ : Sequence) (hₖ : Int) (mₖ : Bool)
    (hrun : allocRun bm seq (-1) false (List.range k) = some (bmₖ, seqₖ, hₖ, mₖ))
    (hh : blockHash bmₖ seqₖ hₖ k ≠ -1)
    (hfound : dictGet bmₖ.hash_to_block_id (blockHash bmₖ seqₖ hₖ k) ≠ -1)
    (hcontent : (blockAt bmₖ (hitId bmₖ seqₖ hₖ k)).token_ids
      = seqₖ.block bmₖ.block_size k) :
    (mₖ = false →
      ∃ bm' seq' m',
        allocStep bmₖ seqₖ hₖ mₖ k = some (bm', seq', blockHash bmₖ seqₖ hₖ k, m') ∧
        seq'.num_cached_tokens = seqₖ.num_cached_tokens + bmₖ.block_size ∧
        seq'.block_table = seqₖ.block_table ++ [hitId bmₖ seqₖ hₖ k] ∧
        refAt bm' (hitId bmₖ seqₖ hₖ k) = refAt bmₖ (hitId bmₖ seqₖ hₖ k) + 1 ∧
        hitId bmₖ seqₖ hₖ k ∈ bm'.used_block_ids ∧
        hitId bmₖ seqₖ hₖ k ∉ bm'.free_block_ids) ∧
    (mₖ = true →
      ∀ bm' seq' h' m', allocStep bmₖ seqₖ hₖ mₖ k = some (bm', seq', h', m') →
        seq'.num_cached_tokens = seqₖ.num_cached_tokens ∧ m' = true ∧
        ∃ bid rest, bmₖ.free_block_ids = bid :: rest ∧
          seq'.block_table = seqₖ.block_table ++ [bid]) := by
  have invₖ : BMInv bmₖ :=
    allocRun_inv (List.range k) bm seq (-1) false (bmₖ, seqₖ, hₖ, mₖ) inv hrun
  have hA : (dictGet bmₖ.hash_to_block_id (blockHash bmₖ seqₖ hₖ k) == -1) = false :=
    beq_eq_false_iff_ne.mpr hfound
  have hB : ((blockAt bmₖ (hitId bmₖ seqₖ hₖ k)).token_ids
      != seqₖ.block bmₖ.block_size k) = false := by
    rw [hcontent, bne_self_eq_false]
  constructor
  · intro hm
    subst hm
    have hsm : stepMiss bmₖ seqₖ hₖ false k = false := by
      rw [stepMiss, hA, hB]
      rfl
    rcases dictGet_cases bmₖ.hash_to_block_id (blockHash bmₖ seqₖ hₖ k) with
      hcase | ⟨p, hp, hcase⟩
    · exact absurd hcase hfound
    have hbidlt : hitId bmₖ seqₖ hₖ k < bmₖ.blocks.length := by
      rw [hitId, hcase]
      simpa using invₖ.dict_lt p hp
    by_cases hused : hitId bmₖ seqₖ hₖ k ∈ bmₖ.used_block_ids
    · have hstep : allocStep bmₖ seqₖ hₖ false k =
          some (allocFinish
            (setBlock bmₖ (hitId bmₖ seqₖ hₖ k)
              fun b => { b with ref_count := b.ref_count + 1 })
            { seqₖ with num_cached_tokens := seqₖ.num_cached_tokens + bmₖ.block_size }
            (blockHash bmₖ seqₖ hₖ k) false (hitId bmₖ seqₖ hₖ k)
            (seqₖ.block bmₖ.block_size k)) := by
        rw [allocStep, hsm, if_neg (by simp), if_pos hused]
      rcases allocFinish_char
          (setBlock bmₖ (hitId bmₖ seqₖ hₖ k)
            fun b => { b with ref_count := b.ref_count + 1 })
          { seqₖ with num_cached_tokens := seqₖ.num_cached_tokens + bmₖ.block_size }
          (blockHash bmₖ seqₖ hₖ k) false (hitId bmₖ seqₖ hₖ k)
          (seqₖ.block bmₖ.block_size k) (BMInv_bumpRef bmₖ _ invₖ hused).1
          (by rw [setBlock_length]; exact hbidlt) with
        ⟨R, heqn, hinvR, hbs, hlen, hfreeR, husedR, hrefR⟩
      rw [heqn] at hstep
      refine ⟨R, _, false, hstep, rfl, rfl, ?_, ?_, ?_⟩
      · rw [hrefR _, (BMInv_bumpRef bmₖ _ invₖ hused).2.1]
      · rw [husedR]
        exact hused
      · rw [hfreeR]
        exact fun hc => invₖ.disj _ hc hused
    · have hbidfree : hitId bmₖ seqₖ hₖ k ∈ bmₖ.free_block_ids := by
        rcases invₖ.cover _ hbidlt with hc | hc
        · exact hc
        · exact absurd hc hused
      have hstep : allocStep bmₖ seqₖ hₖ false k =
          some (allocFinish (claimBlock bmₖ (hitId bmₖ seqₖ hₖ k))
            { seqₖ with num_cached_tokens := seqₖ.num_cached_tokens + bmₖ.block_size }
            (blockHash bmₖ seqₖ hₖ k) false (hitId bmₖ seqₖ hₖ k)
            (seqₖ.block bmₖ.block_size k)) := by
        rw [allocStep, hsm, if_neg (by simp), if_neg hused,
          alloc_block_some bmₖ _ (invₖ.free_ref _ hbidfree)]
      rcases allocFinish_char (claimBlock bmₖ (hitId bmₖ seqₖ hₖ k))
          { seqₖ with num_cached_tokens := seqₖ.num_cached_tokens + bmₖ.block_size }
          (blockHash bmₖ seqₖ hₖ k) false (hitId bmₖ seqₖ hₖ k)
          (seqₖ.block bmₖ.block_size k) (claimBlock_inv bmₖ _ invₖ hbidfree)
          (by rw [claimBlock_length]; exact hbidlt) with
        ⟨R, heqn, hinvR, hbs, hlen, hfreeR, husedR, hrefR⟩
      rw [heqn] at hstep
      refine ⟨R, _, false, hstep, rfl, rfl, ?_, ?_, ?_⟩
      · rw [hrefR _, refAt_claimBlock_self bmₖ _ hbidlt, invₖ.free_ref _ hbidfree]
        omega
      · rw [husedR, claimBlock_used]
        exact Finset.mem_insert_self _ _
      · rw [hfreeR, claimBlock_free]
        exact fun hc => ((invₖ.free_nodup.mem_erase_iff).mp hc).1 rfl
  · intro hm
    subst hm
    intro bm' seq' h' m' hstep
    have hsm : stepMiss bmₖ seqₖ hₖ true k = true := by
      rw [stepMiss]
      rfl
    cases hfree : bmₖ.free_block_ids with
    | nil =>
      rw [allocStep, hsm, if_pos rfl, hfree] at hstep
      exact absurd hstep (by simp)
    | cons bid rest =>
      have hbidfree : bid ∈ bmₖ.free_block_ids := by
        rw [hfree]
        exact List.mem_cons_self bid rest
      rcases allocFinish_char (claimBlock bmₖ bid) seqₖ (blockHash bmₖ seqₖ hₖ k) true bid
          (seqₖ.block bmₖ.block_size k) (claimBlock_inv bmₖ bid invₖ hbidfree)
          (by rw [claimBlock_length]; exact invₖ.free_lt bid hbidfree) with
        ⟨R, heqn, _, _, _, _, _, _⟩
      have hred : allocStep bmₖ seqₖ hₖ true k
          = some (R, { seqₖ with block_table := seqₖ.block_table ++ [bid] },
              blockHash bmₖ seqₖ hₖ k, true) := by
        rw [allocStep, hsm, if_pos rfl, hfree]
        show (match _allocate_block bmₖ bid with
          | none => none
          | some bm₁ => some (allocFinish bm₁ seqₖ (blockHash bmₖ seqₖ hₖ k) true bid
              (seqₖ.block bmₖ.block_size k))) = _
        rw [alloc_block_some bmₖ bid (invₖ.free_ref bid hbidfree)]
        exact congrArg some heqn
      have hstep₂ := hred.symm.trans hstep
      simp only [Option.some.injEq, Prod.mk.injEq] at hstep₂
      obtain ⟨hbm, hseq, hhh, hm'⟩ := hstep₂
      refine ⟨?_, hm'.symm, bid, rest, ?_, ?_⟩
      · rw [← hseq]
      · rfl
      · rw [← hseq]

/-- C1 counterexample: in the reachable sticky scenario, when allocating the
prompt `[8,8,7,7]` the first logical block misses (its dedup entry is
corrupted), so at logical block 1 the carried `cache_miss` flag is `true`
even though the hash is set, the dedup index maps it to block 2, and block
2's `token_ids` equal the candidate slice `[7,7]` — yet the final result
shows block 2 was NOT treated as a hit: `num_cached_tokens` stays 0, block 2
is absent from the block table and stays in the free pool with ref count
0. -/
theorem C1_counterexample :
    Reachable 5 2 stickyPre ∧
    allocRun stickyPre.bm stickyT (-1) false [0] = some stickyMid ∧
    stickyMid.2.2.2 = true ∧
    blockHash stickyMid.1 stickyMid.2.1 stickyMid.2.2.1 1 ≠ -1 ∧
    dictGet stickyMid.1.hash_to_block_id
      (blockHash stickyMid.1 stickyMid.2.1 stickyMid.2.2.1 1) = 2 ∧
    (blockAt stickyMid.1 2).token_ids = stickyMid.2.1.block stickyMid.1.block_size 1 ∧
    allocate stickyPre.bm stickyT = some stickyFin ∧
    stickyFin.2.num_cached_tokens = 0 ∧
    (2 : Nat) ∉ stickyFin.2.block_table ∧
    refAt stickyFin.1 2 = 0 ∧
    (2 : Nat) ∈ stickyFin.1.free_block_ids :=
  ⟨⟨(initState 5 2).getD emptySys, stickyOps, by decide, by decide⟩, by decide, by decide,
    by decide, by decide, by decide, by decide, by decide, by decide, by decide, by decide⟩

/-- Witness for the amended C1 theorem at the sticky scenario: at logical
block 1 of allocating `[8,8,7,7]` all hit conditions hold but the sticky flag
is set, so the step consumes the head of the free deque and adds nothing to
`num_cached_tokens`. -/
theorem C1_amended_sticky_hit_witness :
    (BMInv stickyPre.bm ∧
      allocRun stickyPre.bm stickyT (-1) false (List.range 1)
        = some (stickyMid.1, stickyMid.2.1, stickyMid.2.2.1, stickyMid.2.2.2) ∧
      blockHash stickyMid.1 stickyMid.2.1 stickyMid.2.2.1 1 ≠ -1 ∧
      dictGet stickyMid.1.hash_to_block_id
        (blockHash stickyMid.1 stickyMid.2.1 stickyMid.2.2.1 1) ≠ -1 ∧
      (blockAt stickyMid.1 (hitId stickyMid.1 stickyMid.2.1 stickyMid.2.2.1 1)).token_ids
        = stickyMid.2.1.block stickyMid.1.block_size 1) ∧
    (stickyMid.2.2.2 = true →
      ∀ bm' seq' h' m',
        allocStep stickyMid.1 stickyMid.2.1 stickyMid.2.2.1 stickyMid.2.2.2 1
          = some (bm', seq', h', m') →
        seq'.num_cached_tokens = stickyMid.2.1.num_cached_tokens ∧ m' = true ∧
        ∃ bid rest, stickyMid.1.free_block_ids = bid :: rest ∧
          seq'.block_table = stickyMid.2.1.block_table ++ [bid]) :=
  ⟨⟨by decide, by decide, by decide, by decide, by decide⟩,
    (C1_amended_sticky_hit stickyPre.bm stickyT 1 (by decide) stickyMid.1 stickyMid.2.1
      stickyMid.2.2.1 stickyMid.2.2.2 (by decide) (by decide) (by decide) (by decide)).2⟩

/-- The prefill loop of `Scheduler.schedule`: it admits some prefix of the
waiting queue as an `AdmChain` (each admitted head passed the full-length
budget check and `can_allocate`, was allocated, set to Running, and charged
`num_tokens - num_cached_tokens` to the token total), and stops exactly when
the queue is empty or its head fails one of the three admission checks. -/
theorem prefillLoop_char (maxNS maxBT : Nat) :
    ∀ (ws : List Sequence) (bm : BlockManager) (n t : Nat) (acc : List Sequence)
      (bm' : BlockManager) (ws' : List Sequence) (n' t' : Nat) (adm : List Sequence),
      prefillLoop maxNS maxBT bm ws n t acc = some (bm', ws', n', t', adm) →
      ∃ k, k ≤ ws.length ∧ ws' = ws.drop k ∧ n' = n + k ∧
        (∃ news, adm = acc ++ news ∧ AdmChain maxBT bm t (ws.take k) news bm' t') ∧
        (∀ s, ws'.head? = some s →
          maxNS ≤ n' ∨ maxBT < t' + s.num_tokens ∨ can_allocate bm' s = false) := by
  intro ws
  induction ws with
  | nil =>
    intro bm n t acc bm' ws' n' t' adm hp
    simp only [prefillLoop, Option.some.injEq, Prod.mk.injEq] at hp
    obtain ⟨hbm, hws, hn, ht, hadm⟩ := hp
    subst hbm hws hn ht hadm
    exact ⟨0, by simp, rfl, by omega, ⟨[], by simp, AdmChain.nil _ _⟩,
      fun q hq => by simp at hq⟩
  | cons s rest ih =>
    intro bm n t acc bm' ws' n' t' adm hp
    rw [prefillLoop] at hp
    split at hp
    · rename_i hns
      simp only [Option.some.injEq, Prod.mk.injEq] at hp
      obtain ⟨hbm, hws, hn, ht, hadm⟩ := hp
      subst hbm hws hn ht hadm
      exact ⟨0, by simp, rfl, by omega, ⟨[], by simp, AdmChain.nil _ _⟩,
        fun q hq => Or.inl hns⟩
    · rename_i hns
      split at hp
      · rename_i hrej
        simp only [Option.some.injEq, Prod.mk.injEq] at hp
        obtain ⟨hbm, hws, hn, ht, hadm⟩ := hp
        subst hbm hws hn ht hadm
        refine ⟨0, by simp, rfl, by omega, ⟨[], by simp, AdmChain.nil _ _⟩, ?_⟩
        intro q hq
        have hqs : q = s := by
          simp only [List.head?_cons, Option.some.injEq] at hq
          exact hq.symm
        subst hqs
        have hrej₂ : maxBT < t + q.num_tokens ∨ can_allocate bm q = false := by
          simpa only [Bool.or_eq_true, decide_eq_true_eq, Bool.not_eq_true'] using hrej
        rcases hrej₂ with hbud | hcan
        · exact Or.inr (Or.inl hbud)
        · exact Or.inr (Or.inr hcan)
      · rename_i hrej
        have hok : t + s.num_tokens ≤ maxBT ∧ can_allocate bm s = true := by
          simp only [Bool.or_eq_true, decide_eq_true_eq, Bool.not_eq_true'] at hrej
          push_neg at hrej
          exact ⟨hrej.1, Bool.ne_false_iff.mp hrej.2⟩
        split at hp
        · exact absurd hp (by simp)
        · rename_i bm₁ s₁ halloc
          rcases ih bm₁ (n + 1)
              (t + ({ s₁ with status := SequenceStatus.running }.num_tokens
                - { s₁ with status := SequenceStatus.running }.num_cached_tokens))
              (acc ++ [{ s₁ with status := SequenceStatus.running }]) bm' ws' n' t' adm hp with
            ⟨k, hk, hws, hn, ⟨news, hadm, hchain⟩, hstop⟩
          refine ⟨k + 1, ?_, hws, by omega,
            ⟨{ s₁ with status := SequenceStatus.running } :: news, ?_, ?_⟩, hstop⟩
          · simp only [List.length_cons]
            omega
          · rw [hadm]
            simp
          · exact AdmChain.cons bm t s (rest.take k) news bm₁ s₁ bm' t'
              hok.1 hok.2 halloc hchain

/-- C8: whenever `schedule` returns a prefill batch (`is_prefill = true`),
the batch is a nonempty prefix of the waiting queue admitted as an
`AdmChain` from token total 0 — each admitted head passed the budget check
against its full `num_tokens` and `can_allocate`, was allocated, had its
status set to Running, and charged only `num_tokens - num_cached_tokens` to
the running total — the admitted sequences are appended to the running
queue, and the first non-admitted waiting sequence (if any) was rejected by
the sequence-count cap, the token budget against its full length, or
`can_allocate`. -/
theorem C8_prefill_admission (st : Scheduler) (batch : List Sequence)
    (st' : Scheduler) (hsched : schedule st = some (batch, true, st')) :
    ∃ k t', k ≤ st.waiting.length ∧
      st'.waiting = st.waiting.drop k ∧
      st'.running = st.running ++ batch ∧
      batch ≠ [] ∧
      AdmChain st.max_num_batched_tokens st.block_manager 0 (st.waiting.take k) batch
        st'.block_manager t' ∧
      (∀ s, st'.waiting.head? = some s →
        st.max_num_seqs ≤ k ∨ st.max_num_batched_tokens < t' + s.num_tokens ∨
        can_allocate st'.block_manager s = false) := by
  rw [schedule] at hsched
  split at hsched
  · exact absurd hsched (by simp)
  · rename_i bm₁ wrest n₁ t₁ scheduled hpre
    split at hsched
    · rename_i hne
      simp only [Option.some.injEq, Prod.mk.injEq] at hsched
      obtain ⟨hbatch, _, hst⟩ := hsched
      subst hbatch
      subst hst
      rcases prefillLoop_char st.max_num_seqs st.max_num_batched_tokens st.waiting
          st.block_manager 0 0 [] bm₁ wrest n₁ t₁ scheduled hpre with
        ⟨k, hk, hws, hn, ⟨news, hadm, hchain⟩, hstop⟩
      rw [List.nil_append] at hadm
      subst hadm
      refine ⟨k, t₁, hk, hws, rfl, hne, hchain, ?_⟩
      intro q hq
      rcases hstop q hq with h | h | h
      · exact Or.inl (by omega)
      · exact Or.inr (Or.inl h)
      · exact Or.inr (Or.inr h)
    · rename_i hne
      split at hsched
      · exact absurd hsched (by simp)
      · rename_i bm₂ w₂ leftover sched₂ hdec
        split at hsched
        · exact absurd hsched (by simp)
        · simp only [Option.some.injEq, Prod.mk.injEq] at hsched
          exact absurd hsched.2.1 (by simp)

/-- Witness for C8: admitting the waiting prompt `[1,2,3]` on the fresh
four-block pool. -/
theorem C8_prefill_admission_witness :
    schedule c8Sched = some (c8Res.1, true, c8Res.2.2) ∧
    ∃ k t', k ≤ c8Sched.waiting.length ∧
      c8Res.2.2.waiting = c8Sched.waiting.drop k ∧
      c8Res.2.2.running = c8Sched.running ++ c8Res.1 ∧
      c8Res.1 ≠ [] ∧
      AdmChain c8Sched.max_num_batched_tokens c8Sched.block_manager 0
        (c8Sched.waiting.take k) c8Res.1 c8Res.2.2.block_manager t' ∧
      (∀ s, c8Res.2.2.waiting.head? = some s →
        c8Sched.max_num_seqs ≤ k ∨
        c8Sched.max_num_batched_tokens < t' + s.num_tokens ∨
        can_allocate c8Res.2.2.block_manager s = false) :=
  ⟨by decide, C8_prefill_admission c8Sched c8Res.1 c8Res.2.2 (by decide)⟩

end NanoVllm
